import Mathlib

/-!
Shallow embedding of the session state engine of `cc-session-tailing`
(`internal/session/session.go`, plus the order-preserving tree display of
`internal/tui/components`), together with theorems checking the
natural-language specification against it.

Modelling conventions:
* `time.Time` is modelled as `Nat` (nanoseconds since some epoch);
  `t1.Before(t2)` is `t1 < t2`, `t1.After(t2)` is `t2 < t1`.  Each mutating
  operation takes the value of `time.Now()` as an explicit `now` argument.
* Go maps are modelled as association lists.  The list order stands for
  Go's (unspecified) iteration order; inserting a fresh key appends at the
  end, updating an existing key rewrites it in place.  Distinctness of the
  keys is a structural invariant of Go maps and appears as a `Nodup`
  hypothesis where a theorem needs it.
* Go slices are Lean lists; `*Session` pointers are modelled by storing the
  session value in the manager and returning copies, with updates written
  back through the store.
* `int`/`int64` are `Int`; slot indices (always non-negative where used)
  are `Nat`.
-/

namespace CCST

/-- `parser.ContentBlock`.  The dynamic `Input any` JSON payload is opaque
to the session engine; it is kept as its raw textual form. -/
structure ContentBlock where
  type : String
  text : String
  thinking : String
  name : String
  inputRaw : String
deriving DecidableEq, Repr

/-- `parser.MessageContent`: a list of content blocks. -/
structure MessageContent where
  content : List ContentBlock
deriving DecidableEq, Repr

/-- `parser.Message`: one decoded JSONL record. -/
structure Message where
  type : String
  message : MessageContent
  agentID : String
  sessionID : String
  timestamp : String
deriving DecidableEq, Repr

/-- `session.Session`: one log stream's state. -/
structure Session where
  id : String
  path : String
  parentID : String
  isSubagent : Bool
  messages : List Message
  offset : Int
  lastUpdate : Nat
deriving DecidableEq, Repr

/-- `session.Node`: an ephemeral tree-view node wrapping a session. -/
inductive Node where
  | mk (session : Session) (children : List Node) (expanded : Bool)
deriving Repr

/-- The session stored in a node. -/
def Node.session : Node → Session
  | .mk s _ _ => s

/-- The ordered children of a node. -/
def Node.children : Node → List Node
  | .mk _ c _ => c

/-- The default-expanded flag of a node. -/
def Node.expanded : Node → Bool
  | .mk _ _ e => e

/-- `defaultExcludePatterns`: session-id substrings excluded from display. -/
def defaultExcludePatterns : List String := ["prompt_suggestion"]

/-- `session.Manager`: the session store, the slot (panel) table and the
exclusion configuration.  The `sync.RWMutex` serialises operations and has
no sequential content, so it is not modelled. -/
structure Manager where
  panels : Nat
  sessions : List Session
  panelAssign : List (Nat × String)
  excludePatterns : List String
deriving DecidableEq, Repr

/-- `NewManager`. -/
def NewManager (panels : Nat) : Manager :=
  { panels := panels
    sessions := []
    panelAssign := []
    excludePatterns := defaultExcludePatterns }

/-- Helper for `strings.Contains`: does `pre` occur at the head of `l`? -/
def listHasPre : List Char → List Char → Bool
  | [], _ => true
  | _ :: _, [] => false
  | a :: as, b :: bs => a == b && listHasPre as bs

/-- Helper for `strings.Contains`: does `pat` occur inside `l`? -/
def listHasSub (pat : List Char) : List Char → Bool
  | [] => listHasPre pat []
  | c :: cs => listHasPre pat (c :: cs) || listHasSub pat cs

/-- `strings.Contains(s, pat)`. -/
def strContains (s pat : String) : Bool :=
  listHasSub pat.toList s.toList

/-- `Manager.shouldExcludeSession`: substring match against the patterns. -/
def shouldExcludeSession (m : Manager) (sessionID : String) : Bool :=
  m.excludePatterns.any (fun pattern => strContains sessionID pattern)

/-- `m.sessions[sessionID]` (Go map read; `Nodup` ids make it the entry). -/
def findSession (ss : List Session) (sessionID : String) : Option Session :=
  ss.find? (fun s => s.id == sessionID)

/-- Write-back of an in-place mutation of the `*Session` with this id. -/
def updateSessionEntry (ss : List Session) (sessionID : String)
    (f : Session → Session) : List Session :=
  ss.map (fun s => if s.id == sessionID then f s else s)

/-- `m.panelAssign[i]` (Go map read). -/
def lookupPanel (pa : List (Nat × String)) (i : Nat) : Option String :=
  (pa.find? (fun e => e.fst == i)).map Prod.snd

/-- `m.panelAssign[i] = sessionID` (Go map write). -/
def setPanel (pa : List (Nat × String)) (i : Nat) (sessionID : String) :
    List (Nat × String) :=
  if (pa.find? (fun e => e.fst == i)).isSome then
    pa.map (fun e => if e.fst == i then (i, sessionID) else e)
  else
    pa ++ [(i, sessionID)]

/-- The values of the panel table, in iteration order. -/
def panelValues (pa : List (Nat × String)) : List String :=
  pa.map Prod.snd

/-- `for i := range m.panels { if _, ok := m.panelAssign[i]; !ok ... }`:
the lowest free slot index below `n`, if any. -/
def findEmptyPanel (pa : List (Nat × String)) (n : Nat) : Option Nat :=
  (List.range n).find? (fun i => (lookupPanel pa i).isNone)

/-- The loop of `Manager.getOldestPanel`, walking the panel table in
iteration order with the running best panel (`-1` = none yet) and its
occupant's `lastUpdate`. -/
def getOldestPanelGo (ss : List Session) :
    List (Nat × String) → Int → Nat → Int
  | [], best, _ => best
  | (panel, sessionID) :: rest, best, bestTime =>
    match findSession ss sessionID with
    | none => Int.ofNat panel
    | some s =>
      if best == -1 || s.lastUpdate < bestTime then
        getOldestPanelGo ss rest (Int.ofNat panel) s.lastUpdate
      else
        getOldestPanelGo ss rest best bestTime

/-- `Manager.getOldestPanel`. -/
def getOldestPanel (m : Manager) : Int :=
  getOldestPanelGo m.sessions m.panelAssign (-1) 0

/-- `Manager.assignPanel`: LRU slot assignment. -/
def assignPanel (m : Manager) (sessionID : String) : Manager :=
  if shouldExcludeSession m sessionID then m
  else if (panelValues m.panelAssign).any (fun sid => sid == sessionID) then m
  else
    match findEmptyPanel m.panelAssign m.panels with
    | some i => { m with panelAssign := setPanel m.panelAssign i sessionID }
    | none =>
      let oldestPanel := getOldestPanel m
      if 0 ≤ oldestPanel then
        { m with panelAssign := setPanel m.panelAssign oldestPanel.toNat sessionID }
      else m

/-- `Manager.GetOrCreateSession`.  Returns the (copy of the) session the Go
function returns a pointer to, together with the updated manager. -/
def GetOrCreateSession (m : Manager) (sessionID path : String)
    (isSubagent : Bool) (now : Nat) : Session × Manager :=
  match findSession m.sessions sessionID with
  | some s0 =>
    ({ s0 with lastUpdate := now },
      { m with
        sessions := updateSessionEntry m.sessions sessionID
          (fun s => { s with lastUpdate := now }) })
  | none =>
    let s : Session :=
      { id := sessionID, path := path, parentID := "", isSubagent := isSubagent
        messages := [], offset := 0, lastUpdate := now }
    let m' := { m with sessions := m.sessions ++ [s] }
    (s, assignPanel m' sessionID)

/-- `Manager.GetOrCreateSessionWithParent`. -/
def GetOrCreateSessionWithParent (m : Manager) (sessionID path parentID : String)
    (isSubagent : Bool) (now : Nat) : Session × Manager :=
  match findSession m.sessions sessionID with
  | some s0 =>
    ({ s0 with lastUpdate := now },
      { m with
        sessions := updateSessionEntry m.sessions sessionID
          (fun s => { s with lastUpdate := now }) })
  | none =>
    let s : Session :=
      { id := sessionID, path := path, parentID := parentID
        isSubagent := isSubagent, messages := [], offset := 0, lastUpdate := now }
    let m' := { m with sessions := m.sessions ++ [s] }
    (s, assignPanel m' sessionID)

/-- `Manager.UpdateSession`: append a decoded batch and set the offset. -/
def UpdateSession (m : Manager) (sessionID : String) (messages : List Message)
    (newOffset : Int) (now : Nat) : Manager :=
  match findSession m.sessions sessionID with
  | none => m
  | some _ =>
    { m with
      sessions := updateSessionEntry m.sessions sessionID
        (fun s =>
          { s with
            messages := s.messages ++ messages
            offset := newOffset
            lastUpdate := now }) }

/-- The in-place double loop `if x[j].LastUpdate.After(x[i].LastUpdate)
\x7b swap \x7d` used by every sort in the manager: one inner pass starting
from the current element at position `i`, returning the element finally
left at `i` and the tail it leaves behind. -/
def sortPass (cur : Session) : List Session → Session × List Session
  | [] => (cur, [])
  | y :: ys =>
    if cur.lastUpdate < y.lastUpdate then
      ((sortPass y ys).1, cur :: (sortPass y ys).2)
    else
      ((sortPass cur ys).1, y :: (sortPass cur ys).2)

/-- The outer loop of the exchange sort, with the remaining iteration
count as fuel.  One inner pass fixes one position, so the list length is
exactly the number of outer iterations needed. -/
def sessionSortGo : Nat → List Session → List Session
  | 0, l => l
  | fuel + 1, l =>
    match l with
    | [] => []
    | x :: xs => (sortPass x xs).1 :: sessionSortGo fuel (sortPass x xs).2

/-- The full exchange sort by `lastUpdate` descending (the manager's
`for i ... for j ... if After \x7b swap \x7d` idiom). -/
def sessionSort (l : List Session) : List Session :=
  sessionSortGo l.length l

/-- The collection loop of `Manager.GetPanelSessions`: all sessions the
panel table's entries resolve to, in iteration order. -/
def collectAssigned (m : Manager) : List Session :=
  m.panelAssign.filterMap (fun e => findSession m.sessions e.snd)

/-- `Manager.GetPanelSessions`: assigned sessions sorted newest-first,
padded with `none` (Go `nil`) up to the panel count. -/
def GetPanelSessions (m : Manager) : List (Option Session) :=
  let assigned := sessionSort (collectAssigned m)
  (List.range m.panels).map (fun i => assigned[i]?)

/-- `Manager.GetSession` (`nil` becomes `none`). -/
def GetSession (m : Manager) (sessionID : String) : Option Session :=
  findSession m.sessions sessionID

/-- `Manager.PanelCount`. -/
def PanelCount (m : Manager) : Nat :=
  m.panels

/-- The clamping at the head of `Manager.SetPanelCount`: values outside
`[1,5]` become 1. -/
def clampPanelCount (count : Int) : Nat :=
  if count < 1 then 1 else if count > 5 then 1 else count.toNat

/-- The assignment loop of `Manager.fillEmptyPanels`: walk the slot
indices in order, putting the next still-unassigned session into each
free slot. -/
def fillLoop (pa : List (Nat × String)) :
    List Nat → List Session → List (Nat × String)
  | [], _ => pa
  | i :: rest, unassigned =>
    if (lookupPanel pa i).isNone then
      match unassigned with
      | [] => fillLoop pa rest []
      | u :: us => fillLoop (setPanel pa i u.id) rest us
    else fillLoop pa rest unassigned

/-- The sessions of the store that are not assigned to any slot and not
excluded, in iteration order (the collection loop of
`Manager.fillEmptyPanels`). -/
def unassignedSessions (m : Manager) : List Session :=
  m.sessions.filter (fun s =>
    !((panelValues m.panelAssign).any (fun sid => sid == s.id)) &&
    !(shouldExcludeSession m s.id))

/-- `Manager.fillEmptyPanels`. -/
def fillEmptyPanels (m : Manager) : Manager :=
  { m with
    panelAssign :=
      fillLoop m.panelAssign (List.range m.panels)
        (sessionSort (unassignedSessions m)) }

/-- `Manager.SetPanelCount`: clamp, store, and back-fill when growing. -/
def SetPanelCount (m : Manager) (count : Int) : Manager :=
  let c := clampPanelCount count
  let oldCount := m.panels
  let m' := { m with panels := c }
  if oldCount < c then fillEmptyPanels m' else m'

/-- The store's sessions that survive the exclusion filter, in iteration
order. -/
def visibleSessions (m : Manager) : List Session :=
  m.sessions.filter (fun s => !(shouldExcludeSession m s.id))

/-- `Manager.GetAllSessions`: visible sessions, newest-first. -/
def GetAllSessions (m : Manager) : List Session :=
  sessionSort (visibleSessions m)

/-- The roots collected by `Manager.GetSessionTree`: visible sessions with
an empty `parentID`, in iteration order. -/
def rootsOf (m : Manager) : List Session :=
  (visibleSessions m).filter (fun s => s.parentID == "")

/-- The `childrenMap` bucket of `Manager.GetSessionTree` for a given
parent id: visible sessions with that (non-empty) `parentID`, in
iteration order. -/
def childrenMapOf (m : Manager) (parentID : String) : List Session :=
  (visibleSessions m).filter
    (fun s => s.parentID != "" && s.parentID == parentID)

/-- `Manager.buildNode`.  Go recurses without a bound; the Lean embedding
carries fuel, and `GetSessionTree` supplies fuel that is never exhausted
for the acyclic parent graphs on which the Go recursion terminates
(chains of distinct sessions are shorter than the store size). -/
def buildNode (m : Manager) : Nat → Session → Node
  | 0, s => Node.mk s [] true
  | fuel + 1, s =>
    let children := sessionSort (childrenMapOf m s.id)
    Node.mk s (children.map (buildNode m fuel)) true

/-- `Manager.GetSessionTree`. -/
def GetSessionTree (m : Manager) : List Node :=
  (sessionSort (rootsOf m)).map (buildNode m m.sessions.length)

/-- Lookup in the `newNodeMap`/`newChildMap` Go maps of the tree display:
built by iterating the node list and overwriting on duplicate ids, so the
last node with the id wins. -/
def lookupNode (nodes : List Node) (sessionID : String) : Option Node :=
  (nodes.filter (fun n => n.session.id == sessionID)).getLast?

/-- The ids marked `seen` by the first loop of
`SessionTree.preserveOrder` / `preserveChildOrder`: old nodes that found a
match among the new nodes. -/
def seenIds (old new_ : List Node) : List String :=
  (old.filter (fun o => (lookupNode new_ o.session.id).isSome)).map
    (fun o => o.session.id)

mutual

/-- The first loop of `SessionTree.preserveOrder` /
`preserveChildOrder`: old nodes in their old order, replaced by their
matching new node with recursively reconciled children; unmatched old
nodes are dropped. -/
def matchOldNodes : List Node → List Node → List Node
  | [], _ => []
  | Node.mk os oc _oe :: rest, new_ =>
    match lookupNode new_ os.id with
    | some nn =>
      Node.mk nn.session (preserveChildOrder oc nn.children) nn.expanded
        :: matchOldNodes rest new_
    | none => matchOldNodes rest new_
termination_by l _ => (sizeOf l, 0)
decreasing_by
  all_goals apply Prod.Lex.left
  all_goals simp
  all_goals omega

/-- `SessionTree.preserveChildOrder`. -/
def preserveChildOrder (old new_ : List Node) : List Node :=
  if old.isEmpty then new_
  else
    matchOldNodes old new_ ++
      new_.filter (fun n => !((seenIds old new_).any (fun i => i == n.session.id)))
termination_by (sizeOf old, 1)
decreasing_by
  · apply Prod.Lex.right'
    · omega
    · omega

end

/-- `SessionTree.preserveOrder` (the spec's `BuildPreservingOrder`):
reconcile the new forest against the previously displayed one. -/
def preserveOrder (old new_ : List Node) : List Node :=
  matchOldNodes old new_ ++
    new_.filter (fun n => !((seenIds old new_).any (fun i => i == n.session.id)))

/-! ### Derived definitions used by the theorems -/

/-- The arguments of one `UpdateSession` call. -/
structure AppendCall where
  messages : List Message
  newOffset : Int
  now : Nat
deriving DecidableEq, Repr

/-- A sequence of `UpdateSession` calls on one session, in call order. -/
def applyAppends (m : Manager) (sessionID : String) : List AppendCall → Manager
  | [] => m
  | c :: cs =>
    applyAppends (UpdateSession m sessionID c.messages c.newOffset c.now)
      sessionID cs

mutual

/-- Node count of a display tree. -/
def countNodes : Node → Nat
  | Node.mk _ cs _ => 1 + countForest cs

def countForest : List Node → Nat
  | [] => 0
  | n :: rest => countNodes n + countForest rest

end

mutual

/-- The sessions stored in a tree, in preorder. -/
def nodeSessions : Node → List Session
  | Node.mk s cs _ => s :: forestSessions cs

def forestSessions : List Node → List Session
  | [] => []
  | n :: rest => nodeSessions n ++ forestSessions rest

end

mutual

/-- All nodes of a tree, in preorder. -/
def allNodes : Node → List Node
  | Node.mk s cs e => Node.mk s cs e :: allNodesForest cs

def allNodesForest : List Node → List Node
  | [] => []
  | n :: rest => allNodes n ++ allNodesForest rest

end

/-- The session ids at the top level of a node list, in order. -/
def nodeIds (ns : List Node) : List String :=
  ns.map (fun n => n.session.id)

/-- The parent chain of `s` inside the session list `V`: `s`, its parent,
its grandparent, ..., ending at a session with an empty `parentID`;
`none` when a parent id is missing from `V` or the chain does not close
within the given fuel. -/
def upChain (V : List Session) : Nat → Session → Option (List Session)
  | 0, _ => none
  | fuel + 1, s =>
    if s.parentID = "" then some [s]
    else
      match V.find? (fun t => t.id == s.parentID) with
      | none => none
      | some p => (upChain V fuel p).map (fun c => s :: c)

/-- The parent chain with fuel `V.length`, enough for any acyclic chain of
distinct sessions. -/
def chainOf (V : List Session) (s : Session) : Option (List Session) :=
  upChain V V.length s

/-- Every session of `V` has a parent chain ending at a root: the
hierarchy hypothesis under which `GetSessionTree` is a faithful forest. -/
def rootedForest (V : List Session) : Bool :=
  V.all (fun s => (chainOf V s).isSome)

/-- `anc` lies on the parent chain of `v` (so `v` belongs to the subtree
that the forest builder hangs under `anc`). -/
def inChain (V : List Session) (anc v : Session) : Bool :=
  match chainOf V v with
  | none => false
  | some c => c.any (fun t => t == anc)

/-- Number of sessions of `V` in the subtree hanging under `s`. -/
def descCount (V : List Session) (s : Session) : Nat :=
  V.countP (fun v => inChain V s v)

/-- The `childrenMap` bucket for `parentID` inside an arbitrary session
list (`childrenMapOf` is this applied to the visible sessions). -/
def childFilter (V : List Session) (parentID : String) : List Session :=
  V.filter (fun t => t.parentID != "" && t.parentID == parentID)

/-- A session fixture with everything but the id and parent defaulted. -/
def testSession (i parentID : String) (t : Nat) : Session :=
  { id := i, path := "", parentID := parentID, isSubagent := false
    messages := [], offset := 0, lastUpdate := t }

/-- Two stores holding the same two sessions with equal `lastUpdate`, in
the two possible map iteration orders. -/
def mgrTieAB : Manager :=
  { panels := 1
    sessions := [{ id := "a", path := "", parentID := "", isSubagent := false
                   messages := [], offset := 0, lastUpdate := 5 },
                 { id := "b", path := "", parentID := "", isSubagent := false
                   messages := [], offset := 0, lastUpdate := 5 }]
    panelAssign := []
    excludePatterns := defaultExcludePatterns }

/-- The same store as `mgrTieAB` with the opposite iteration order. -/
def mgrTieBA : Manager :=
  { panels := 1
    sessions := [{ id := "b", path := "", parentID := "", isSubagent := false
                   messages := [], offset := 0, lastUpdate := 5 },
                 { id := "a", path := "", parentID := "", isSubagent := false
                   messages := [], offset := 0, lastUpdate := 5 }]
    panelAssign := []
    excludePatterns := defaultExcludePatterns }

/-- Two sessions whose `parentID`s point at each other: each `parentID`
is the id of another session of the set, yet no parent chain reaches a
root. -/
def mgrParentCycle : Manager :=
  { panels := 1
    sessions := [{ id := "a", path := "", parentID := "b", isSubagent := false
                   messages := [], offset := 0, lastUpdate := 1 },
                 { id := "b", path := "", parentID := "a", isSubagent := false
                   messages := [], offset := 0, lastUpdate := 2 }]
    panelAssign := []
    excludePatterns := defaultExcludePatterns }

/-- An excluded parent with a visible child: the child's `parentID` is the
id of another session of the set, but that parent is excluded from the
hierarchy, so the child vanishes too. -/
def mgrExcludedParent : Manager :=
  { panels := 1
    sessions := [{ id := "p_prompt_suggestion", path := "", parentID := ""
                   isSubagent := false, messages := [], offset := 0, lastUpdate := 1 },
                 { id := "kid", path := "", parentID := "p_prompt_suggestion"
                   isSubagent := false, messages := [], offset := 0, lastUpdate := 2 }]
    panelAssign := []
    excludePatterns := defaultExcludePatterns }

/-- A store with one assigned session and two unassigned ones, used to
exercise panel growth. -/
def mgrGrow : Manager :=
  { panels := 1
    sessions := [{ id := "a", path := "", parentID := "", isSubagent := false
                   messages := [], offset := 0, lastUpdate := 1 },
                 { id := "b", path := "", parentID := "", isSubagent := false
                   messages := [], offset := 0, lastUpdate := 5 },
                 { id := "c", path := "", parentID := "", isSubagent := false
                   messages := [], offset := 0, lastUpdate := 9 }]
    panelAssign := [(0, "a")]
    excludePatterns := defaultExcludePatterns }

/-- A small well-formed store: one root with two children. -/
def mgrFamily : Manager :=
  { panels := 2
    sessions := [{ id := "child1", path := "", parentID := "root"
                   isSubagent := false, messages := [], offset := 0, lastUpdate := 5 },
                 { id := "root", path := "", parentID := "", isSubagent := false
                   messages := [], offset := 0, lastUpdate := 1 },
                 { id := "child2", path := "", parentID := "root"
                   isSubagent := false, messages := [], offset := 0, lastUpdate := 3 }]
    panelAssign := []
    excludePatterns := defaultExcludePatterns }

/-! ### Properties of the exchange sort -/

/-- The comparison the manager sorts by: `lastUpdate` descending. -/
def descByUpdate (a b : Session) : Prop :=
  b.lastUpdate ≤ a.lastUpdate

instance : DecidableRel descByUpdate := by
  intro a b; unfold descByUpdate; infer_instance

theorem sortPass_length (cur : Session) (l : List Session) :
    ((sortPass cur l).2).length = l.length := by
  induction l generalizing cur with
  | nil => simp [sortPass]
  | cons y ys ih => simp only [sortPass]; split <;> simp [ih]

theorem sessionSortGo_congr (fuel fuel2 : Nat) (l : List Session)
    (h : l.length ≤ fuel) (h2 : l.length ≤ fuel2) :
    sessionSortGo fuel l = sessionSortGo fuel2 l := by
  induction fuel generalizing fuel2 l with
  | zero =>
    have : l = [] := List.length_eq_zero.mp (Nat.le_zero.mp h)
    subst this
    cases fuel2 <;> simp [sessionSortGo]
  | succ n ih =>
    cases l with
    | nil => cases fuel2 <;> simp [sessionSortGo]
    | cons x xs =>
      cases fuel2 with
      | zero => simp at h2
      | succ n2 =>
        simp only [sessionSortGo]
        have hlen : ((sortPass x xs).2).length = xs.length := sortPass_length x xs
        have hx : xs.length ≤ n := by simpa using h
        have hx2 : xs.length ≤ n2 := by simpa using h2
        rw [ih n2 (sortPass x xs).2 (by rw [hlen]; exact hx) (by rw [hlen]; exact hx2)]

theorem sessionSort_nil : sessionSort [] = [] := rfl

theorem sessionSort_cons (x : Session) (xs : List Session) :
    sessionSort (x :: xs) =
      (sortPass x xs).1 :: sessionSort (sortPass x xs).2 := by
  show sessionSortGo (xs.length + 1) (x :: xs) = _
  simp only [sessionSortGo]
  rw [sessionSortGo_congr xs.length ((sortPass x xs).2).length (sortPass x xs).2
    (by rw [sortPass_length]) (le_refl _)]
  rfl

theorem sortPass_perm (cur : Session) (l : List Session) :
    List.Perm ((sortPass cur l).1 :: (sortPass cur l).2) (cur :: l) := by
  induction l generalizing cur with
  | nil => simp [sortPass]
  | cons y ys ih =>
    simp only [sortPass]
    split
    · have h1 : List.Perm ((sortPass y ys).1 :: cur :: (sortPass y ys).2)
          (cur :: (sortPass y ys).1 :: (sortPass y ys).2) :=
        List.Perm.swap _ _ _
      have h2 : List.Perm (cur :: (sortPass y ys).1 :: (sortPass y ys).2)
          (cur :: y :: ys) := (ih y).cons cur
      exact h1.trans h2
    · have h1 : List.Perm ((sortPass cur ys).1 :: y :: (sortPass cur ys).2)
          (y :: (sortPass cur ys).1 :: (sortPass cur ys).2) :=
        List.Perm.swap _ _ _
      have h2 : List.Perm (y :: (sortPass cur ys).1 :: (sortPass cur ys).2)
          (y :: cur :: ys) := (ih cur).cons y
      exact h1.trans (h2.trans (List.Perm.swap _ _ _))

theorem sortPass_max (cur : Session) (l : List Session) :
    ∀ x ∈ cur :: l, x.lastUpdate ≤ ((sortPass cur l).1).lastUpdate := by
  induction l generalizing cur with
  | nil =>
    intro x hx
    rcases List.mem_cons.mp hx with h | h
    · subst h; simp [sortPass]
    · simp at h
  | cons y ys ih =>
    intro x hx
    simp only [sortPass]
    rcases List.mem_cons.mp hx with h | h
    · subst h
      split
      · rename_i hlt
        exact le_trans (le_of_lt hlt) (ih y y (List.mem_cons_self _ _))
      · exact ih x x (List.mem_cons_self _ _)
    · split
      · rename_i hlt
        exact ih y x h
      · rename_i hge
        rcases List.mem_cons.mp h with h2 | h2
        · subst h2
          exact le_trans (Nat.not_lt.mp hge) (ih cur cur (List.mem_cons_self _ _))
        · exact ih cur x (List.mem_cons_of_mem _ h2)

theorem sessionSort_perm (l : List Session) :
    List.Perm (sessionSort l) l := by
  match l with
  | [] => simp [sessionSort_nil]
  | x :: xs =>
    rw [sessionSort_cons]
    have h1 := sessionSort_perm (sortPass x xs).2
    exact (h1.cons _).trans (sortPass_perm x xs)
termination_by l.length
decreasing_by simp [sortPass_length]

theorem sessionSort_sorted (l : List Session) :
    (sessionSort l).Pairwise descByUpdate := by
  match l with
  | [] => simp [sessionSort_nil]
  | x :: xs =>
    rw [sessionSort_cons]
    refine List.Pairwise.cons ?_ (sessionSort_sorted (sortPass x xs).2)
    intro b hb
    have hb2 : b ∈ (sortPass x xs).2 := (sessionSort_perm _).mem_iff.mp hb
    have hb3 : b ∈ x :: xs :=
      (sortPass_perm x xs).mem_iff.mp (List.mem_cons_of_mem _ hb2)
    exact sortPass_max x xs b hb3
termination_by l.length
decreasing_by simp [sortPass_length]

theorem sessionSort_mem (l : List Session) (s : Session) :
    s ∈ sessionSort l ↔ s ∈ l :=
  (sessionSort_perm l).mem_iff

theorem sessionSort_length (l : List Session) :
    (sessionSort l).length = l.length :=
  (sessionSort_perm l).length_eq

/-! ### Store lookup/update lemmas -/

theorem updateSessionEntry_id (sessionID : String) (f : Session → Session)
    (hf : ∀ s, (f s).id = s.id) (s : Session) :
    ((fun t => if t.id == sessionID then f t else t) s).id = s.id := by
  by_cases h : s.id = sessionID <;> simp [h, hf]

theorem findSession_updateSessionEntry (ss : List Session) (sessionID : String)
    (f : Session → Session) (hf : ∀ s, (f s).id = s.id) :
    findSession (updateSessionEntry ss sessionID f) sessionID =
      (findSession ss sessionID).map f := by
  unfold findSession updateSessionEntry
  rw [List.find?_map]
  have hpred : ((fun s => s.id == sessionID) ∘
      fun t => if t.id == sessionID then f t else t) = fun s => s.id == sessionID := by
    funext s
    by_cases h : s.id = sessionID <;> simp [Function.comp, h, hf]
  rw [hpred]
  cases hfind : ss.find? (fun s => s.id == sessionID) with
  | none => simp
  | some a =>
    have ha := List.find?_some hfind
    simp only [beq_iff_eq] at ha
    simp [ha]

theorem findSession_updateSessionEntry_ne (ss : List Session)
    (sessionID other : String) (f : Session → Session)
    (hf : ∀ s, (f s).id = s.id) (hne : other ≠ sessionID) :
    findSession (updateSessionEntry ss sessionID f) other =
      findSession ss other := by
  unfold findSession updateSessionEntry
  rw [List.find?_map]
  have hpred : ((fun s => s.id == other) ∘
      fun t => if t.id == sessionID then f t else t) = fun s => s.id == other := by
    funext s
    by_cases h : s.id = sessionID <;> simp [Function.comp, h, hf]
  rw [hpred]
  cases hfind : ss.find? (fun s => s.id == other) with
  | none => simp
  | some a =>
    have ha : a.id = other := by simpa using List.find?_some hfind
    have : ¬(a.id = sessionID) := by rw [ha]; exact hne
    simp [this]

theorem findSession_append_new (ss : List Session) (s : Session)
    (h : findSession ss s.id = none) :
    findSession (ss ++ [s]) s.id = some s := by
  unfold findSession at *
  rw [List.find?_append, h]
  simp

/-! ### C6: appending to an unknown session is a total no-op -/

/-- C6: for every id not present in the store, `UpdateSession` (the spec's
`Append`) returns without failing and leaves the whole manager — sessions,
messages, offsets and the slot table — unchanged. -/
theorem c6_updateSession_unknown_noop (m : Manager) (sessionID : String)
    (messages : List Message) (newOffset : Int) (now : Nat)
    (h : findSession m.sessions sessionID = none) :
    UpdateSession m sessionID messages newOffset now = m := by
  simp only [UpdateSession, h]

/-- Witness for C6 at a concrete input. -/
theorem c6_updateSession_unknown_noop_witness :
    UpdateSession (NewManager 2) "ghost" [] 7 3 = NewManager 2 :=
  c6_updateSession_unknown_noop (NewManager 2) "ghost" [] 7 3 rfl

/-! ### C4: Append concatenates batches in call order -/

theorem updateSession_found (m : Manager) (sessionID : String) (s : Session)
    (msgs : List Message) (off : Int) (now : Nat)
    (h : findSession m.sessions sessionID = some s) :
    findSession (UpdateSession m sessionID msgs off now).sessions sessionID =
      some { s with messages := s.messages ++ msgs, offset := off, lastUpdate := now } := by
  simp only [UpdateSession, h]
  rw [findSession_updateSessionEntry m.sessions sessionID
    (fun s => { s with messages := s.messages ++ msgs, offset := off, lastUpdate := now })
    (fun _ => rfl), h]
  rfl

theorem updateSession_frame (m : Manager) (sessionID : String) (s : Session)
    (msgs : List Message) (off : Int) (now : Nat)
    (h : findSession m.sessions sessionID = some s) :
    (UpdateSession m sessionID msgs off now).panels = m.panels ∧
    (UpdateSession m sessionID msgs off now).panelAssign = m.panelAssign ∧
    (UpdateSession m sessionID msgs off now).excludePatterns = m.excludePatterns ∧
    (∀ other, other ≠ sessionID →
      findSession (UpdateSession m sessionID msgs off now).sessions other =
        findSession m.sessions other) := by
  refine ⟨by simp [UpdateSession, h], by simp [UpdateSession, h],
    by simp [UpdateSession, h], fun other hne => ?_⟩
  simp only [UpdateSession, h]
  exact findSession_updateSessionEntry_ne _ _ _
    (fun s => { s with messages := s.messages ++ msgs, offset := off, lastUpdate := now })
    (fun _ => rfl) hne

/-- C4: for a session known to the store, any sequence of `UpdateSession`
calls leaves its `messages` equal to the original messages followed by the
concatenation of all appended batches in call order (an empty batch
changing nothing), its `offset` equal to the last supplied offset, and its
message list only ever grows. -/
theorem c4_updateSession_append_only (m : Manager) (sessionID : String)
    (s : Session) (calls : List AppendCall)
    (h : findSession m.sessions sessionID = some s) :
    (∀ msgs off now,
      findSession (UpdateSession m sessionID msgs off now).sessions sessionID =
        some { s with messages := s.messages ++ msgs, offset := off, lastUpdate := now }) ∧
    ∃ s', findSession (applyAppends m sessionID calls).sessions sessionID = some s' ∧
      s'.messages = s.messages ++ (calls.map AppendCall.messages).flatten ∧
      s'.offset = (calls.map AppendCall.newOffset).getLastD s.offset ∧
      s.messages.length ≤ s'.messages.length := by
  refine ⟨fun msgs off now => updateSession_found m sessionID s msgs off now h, ?_⟩
  induction calls generalizing m s with
  | nil => exact ⟨s, h, by simp, rfl, le_refl _⟩
  | cons c cs ih =>
    have hstep := updateSession_found m sessionID s c.messages c.newOffset c.now h
    obtain ⟨s', hfind, hmsg, hoff, _⟩ :=
      ih (UpdateSession m sessionID c.messages c.newOffset c.now) _ hstep
    refine ⟨s', hfind, ?_, ?_, ?_⟩
    · rw [hmsg]; simp [List.append_assoc]
    · rw [hoff, List.map_cons, List.getLastD_cons]
    · rw [hmsg]; simp

/-- Witness for C4: two concrete appends on a one-session store. -/
theorem c4_updateSession_append_only_witness :
    ∃ s', findSession
        (applyAppends
          { panels := 1
            sessions := [{ id := "a", path := "p", parentID := ""
                           isSubagent := false, messages := [], offset := 0
                           lastUpdate := 0 }]
            panelAssign := []
            excludePatterns := defaultExcludePatterns }
          "a"
          [⟨[⟨"user", ⟨[]⟩, "", "", "t1"⟩], 10, 1⟩,
           ⟨[⟨"assistant", ⟨[]⟩, "", "", "t2"⟩], 25, 2⟩]).sessions "a" = some s' ∧
      s'.messages =
        [] ++ ([[⟨"user", ⟨[]⟩, "", "", "t1"⟩], [⟨"assistant", ⟨[]⟩, "", "", "t2"⟩]].flatten) ∧
      s'.offset = ([10, 25] : List Int).getLastD 0 ∧
      (0 : Nat) ≤ s'.messages.length := by
  have h := (c4_updateSession_append_only
    { panels := 1
      sessions := [{ id := "a", path := "p", parentID := ""
                     isSubagent := false, messages := [], offset := 0
                     lastUpdate := 0 }]
      panelAssign := []
      excludePatterns := defaultExcludePatterns }
    "a"
    { id := "a", path := "p", parentID := "", isSubagent := false
      messages := [], offset := 0, lastUpdate := 0 }
    [⟨[⟨"user", ⟨[]⟩, "", "", "t1"⟩], 10, 1⟩,
     ⟨[⟨"assistant", ⟨[]⟩, "", "", "t2"⟩], 25, 2⟩] rfl).2
  obtain ⟨s', h1, h2, h3, _⟩ := h
  exact ⟨s', h1, by simpa using h2, by simpa using h3, by simp⟩

theorem assignPanel_sessions (m : Manager) (sessionID : String) :
    (assignPanel m sessionID).sessions = m.sessions := by
  unfold assignPanel
  split
  · rfl
  · split
    · rfl
    · split
      · rfl
      · simp only []
        split <;> rfl

theorem assignPanel_panels (m : Manager) (sessionID : String) :
    (assignPanel m sessionID).panels = m.panels := by
  unfold assignPanel
  split
  · rfl
  · split
    · rfl
    · split
      · rfl
      · simp only []
        split <;> rfl

theorem assignPanel_excludePatterns (m : Manager) (sessionID : String) :
    (assignPanel m sessionID).excludePatterns = m.excludePatterns := by
  unfold assignPanel
  split
  · rfl
  · split
    · rfl
    · split
      · rfl
      · simp only []
        split <;> rfl

/-! ### C5: idempotent creation -/

/-- C5: a `GetOrCreateSession` / `GetOrCreateSessionWithParent` call on an
existing id returns the stored session with only `lastUpdate` refreshed —
`messages`, `offset`, `path`, `parentID` and `isSubagent` unchanged,
whatever `path`/`parentID` arguments the call passes — and leaves the slot
table untouched; a call on a fresh id creates the session with empty
`messages` and `offset` 0 and hands the store to `assignPanel`. -/
theorem c5_getOrCreate_idempotent (m : Manager) (sessionID p1 p2 parentID : String)
    (b1 b2 : Bool) (now : Nat) :
    (∀ s, findSession m.sessions sessionID = some s →
      (GetOrCreateSession m sessionID p1 b1 now).1 = { s with lastUpdate := now } ∧
      (GetOrCreateSessionWithParent m sessionID p2 parentID b2 now).1 =
        { s with lastUpdate := now } ∧
      (GetOrCreateSessionWithParent m sessionID p2 parentID b2 now).2 =
        (GetOrCreateSession m sessionID p1 b1 now).2 ∧
      (GetOrCreateSession m sessionID p1 b1 now).2.panelAssign = m.panelAssign ∧
      (GetOrCreateSession m sessionID p1 b1 now).2.panels = m.panels ∧
      findSession (GetOrCreateSession m sessionID p1 b1 now).2.sessions sessionID =
        some { s with lastUpdate := now } ∧
      (∀ other, other ≠ sessionID →
        findSession (GetOrCreateSession m sessionID p1 b1 now).2.sessions other =
          findSession m.sessions other)) ∧
    (findSession m.sessions sessionID = none →
      (GetOrCreateSession m sessionID p1 b1 now).1 =
        { id := sessionID, path := p1, parentID := "", isSubagent := b1
          messages := [], offset := 0, lastUpdate := now } ∧
      findSession (GetOrCreateSession m sessionID p1 b1 now).2.sessions sessionID =
        some (GetOrCreateSession m sessionID p1 b1 now).1 ∧
      (GetOrCreateSession m sessionID p1 b1 now).2 =
        assignPanel
          { m with sessions := m.sessions ++ [(GetOrCreateSession m sessionID p1 b1 now).1] }
          sessionID) := by
  constructor
  · intro s hs
    refine ⟨?_, ?_, ?_, ?_, ?_, ?_, ?_⟩
    · simp [GetOrCreateSession, hs]
    · simp [GetOrCreateSessionWithParent, hs]
    · simp [GetOrCreateSession, GetOrCreateSessionWithParent, hs]
    · simp [GetOrCreateSession, hs]
    · simp [GetOrCreateSession, hs]
    · simp only [GetOrCreateSession, hs]
      rw [findSession_updateSessionEntry m.sessions sessionID
        (fun t => { t with lastUpdate := now }) (fun _ => rfl), hs]
      rfl
    · intro other hne
      simp only [GetOrCreateSession, hs]
      exact findSession_updateSessionEntry_ne _ _ _
        (fun t => { t with lastUpdate := now }) (fun _ => rfl) hne
  · intro hs
    refine ⟨by simp [GetOrCreateSession, hs], ?_, by simp [GetOrCreateSession, hs]⟩
    simp only [GetOrCreateSession, hs]
    have := findSession_append_new m.sessions
      { id := sessionID, path := p1, parentID := "", isSubagent := b1
        messages := [], offset := 0, lastUpdate := now } hs
    rw [assignPanel_sessions]
    exact this

/-- Witness for C5: a second create on an existing id only bumps
`lastUpdate`, and a create on a fresh store builds the empty session. -/
theorem c5_getOrCreate_idempotent_witness :
    (GetOrCreateSession
      { panels := 1
        sessions := [{ id := "a", path := "p", parentID := "", isSubagent := false
                       messages := [], offset := 42, lastUpdate := 5 }]
        panelAssign := [(0, "a")]
        excludePatterns := defaultExcludePatterns }
      "a" "other-path" true 9).1 =
      { id := "a", path := "p", parentID := "", isSubagent := false
        messages := [], offset := 42, lastUpdate := 9 } ∧
    (GetOrCreateSession (NewManager 1) "b" "q" false 3).1 =
      { id := "b", path := "q", parentID := "", isSubagent := false
        messages := [], offset := 0, lastUpdate := 3 } := by
  constructor
  · exact ((c5_getOrCreate_idempotent
      { panels := 1
        sessions := [{ id := "a", path := "p", parentID := "", isSubagent := false
                       messages := [], offset := 42, lastUpdate := 5 }]
        panelAssign := [(0, "a")]
        excludePatterns := defaultExcludePatterns }
      "a" "other-path" "x" "par" true false 9).1
      { id := "a", path := "p", parentID := "", isSubagent := false
        messages := [], offset := 42, lastUpdate := 5 } rfl).1
  · exact ((c5_getOrCreate_idempotent (NewManager 1) "b" "q" "x" "par" false true 3).2
      rfl).1

/-! ### Panel table lemmas -/

theorem lookupPanel_setPanel_same (pa : List (Nat × String)) (j : Nat) (v : String) :
    lookupPanel (setPanel pa j v) j = some v := by
  unfold lookupPanel setPanel
  split
  · rename_i hsome
    rw [List.find?_map]
    have hpred : ((fun e => e.fst == j) ∘
        fun e => if e.fst == j then (j, v) else e) = fun e : Nat × String => e.fst == j := by
      funext e
      by_cases h : e.fst = j <;> simp [Function.comp, h]
    rw [hpred]
    obtain ⟨e, he⟩ := Option.isSome_iff_exists.mp hsome
    rw [he]
    have ht := List.find?_some he
    simp only [beq_iff_eq] at ht
    simp [ht]
  · rename_i hnone
    have h0 : pa.find? (fun e => e.fst == j) = none := by
      cases hx : pa.find? (fun e => e.fst == j) with
      | none => rfl
      | some e => rw [hx] at hnone; simp at hnone
    rw [List.find?_append, h0]
    simp

theorem lookupPanel_setPanel_ne (pa : List (Nat × String)) (i j : Nat) (v : String)
    (hne : i ≠ j) :
    lookupPanel (setPanel pa j v) i = lookupPanel pa i := by
  unfold lookupPanel setPanel
  split
  · rw [List.find?_map]
    have hpred : ((fun e => e.fst == i) ∘
        fun e => if e.fst == j then (j, v) else e) = fun e : Nat × String => e.fst == i := by
      funext e
      by_cases h : e.fst = j <;> simp [Function.comp, h]
    rw [hpred]
    cases hx : pa.find? (fun e => e.fst == i) with
    | none => simp
    | some e =>
      have ht := List.find?_some hx
      simp only [beq_iff_eq] at ht
      have hej : ¬(e.fst = j) := by rw [ht]; exact hne
      simp [hej]
  · rw [List.find?_append]
    have : List.find? (fun e => e.fst == i) [(j, v)] = none := by
      simp
      exact fun h => absurd h.symm hne
    rw [this]
    simp

theorem panelValues_setPanel_sub (pa : List (Nat × String)) (j : Nat) (v : String) :
    ∀ w ∈ panelValues (setPanel pa j v), w ∈ panelValues pa ∨ w = v := by
  intro w hw
  unfold panelValues setPanel at *
  split at hw
  · rw [List.map_map] at hw
    obtain ⟨e, he, hval⟩ := List.mem_map.mp hw
    by_cases h : e.fst = j
    · right
      simp [Function.comp, h] at hval
      exact hval.symm
    · left
      simp [Function.comp, h] at hval
      exact hval ▸ List.mem_map_of_mem Prod.snd he
  · rw [List.map_append] at hw
    rcases List.mem_append.mp hw with h | h
    · exact Or.inl h
    · right
      simpa using h

theorem panelValues_fillLoop_sub (idxs : List Nat) :
    ∀ (pa : List (Nat × String)) (us : List Session),
      ∀ w ∈ panelValues (fillLoop pa idxs us),
        w ∈ panelValues pa ∨ w ∈ us.map Session.id := by
  induction idxs with
  | nil => intro pa us w hw; exact Or.inl hw
  | cons i rest ih =>
    intro pa us w hw
    simp only [fillLoop] at hw
    split at hw
    · cases us with
      | nil => exact (ih pa [] w hw).imp id id
      | cons u urest =>
        rcases ih (setPanel pa i u.id) urest w hw with h | h
        · rcases panelValues_setPanel_sub pa i u.id w h with h2 | h2
          · exact Or.inl h2
          · exact Or.inr (by simp [h2])
        · exact Or.inr (by simp; right; exact List.mem_map.mp h |>.imp fun a ⟨ha, hv⟩ => ⟨ha, hv⟩)
    · exact ih pa us w hw

theorem lookupPanel_fillLoop_preserve (idxs : List Nat) :
    ∀ (pa : List (Nat × String)) (us : List Session) (i : Nat) (v : String),
      lookupPanel pa i = some v →
      lookupPanel (fillLoop pa idxs us) i = some v := by
  induction idxs with
  | nil => intro pa us i v hv; exact hv
  | cons j rest ih =>
    intro pa us i v hv
    simp only [fillLoop]
    split
    · rename_i hfree
      cases us with
      | nil => exact ih pa [] i v hv
      | cons u urest =>
        have hne : i ≠ j := by
          intro h
          subst h
          rw [hv] at hfree
          simp at hfree
        exact ih (setPanel pa j u.id) urest i v
          (by rw [lookupPanel_setPanel_ne pa i j u.id hne]; exact hv)
    · exact ih pa us i v hv

theorem assignPanel_assigned_noop (m : Manager) (sessionID : String)
    (h : sessionID ∈ panelValues m.panelAssign) :
    assignPanel m sessionID = m := by
  unfold assignPanel
  split
  · rfl
  · have : ((panelValues m.panelAssign).any fun sid => sid == sessionID) = true :=
      List.any_eq_true.mpr ⟨sessionID, h, by simp⟩
    simp [this]

/-! ### C8: AllSessions ordering -/

/-- C8 counterexample: two stores holding the same session set (same
panel count, slot table and patterns), differing only in map iteration
order, for which `GetAllSessions` returns different sequences — so the
tie-break is not a pure function of the timestamp and the session id, and
the order does depend on map iteration order. -/
theorem c8_getAllSessions_order_counterexample :
    List.Perm mgrTieAB.sessions mgrTieBA.sessions ∧
    mgrTieAB.panels = mgrTieBA.panels ∧
    mgrTieAB.panelAssign = mgrTieBA.panelAssign ∧
    mgrTieAB.excludePatterns = mgrTieBA.excludePatterns ∧
    GetAllSessions mgrTieAB ≠ GetAllSessions mgrTieBA := by
  refine ⟨?_, rfl, rfl, rfl, ?_⟩
  · have : mgrTieAB.sessions = [mgrTieAB.sessions[0], mgrTieBA.sessions[0]] := rfl
    rw [this]
    exact List.Perm.swap _ _ _
  · decide

/-- C8 amended: `GetAllSessions` returns exactly the non-excluded
sessions, sorted by `lastUpdate` descending; ties between equal
`lastUpdate` values are broken by the incidental interaction of map
iteration order with the non-stable exchange sort, not by a
timestamp-then-id key. -/
theorem c8_getAllSessions_sorted (m : Manager) :
    List.Perm (GetAllSessions m) (visibleSessions m) ∧
    (GetAllSessions m).Pairwise descByUpdate ∧
    (∀ s, s ∈ GetAllSessions m ↔
      s ∈ m.sessions ∧ shouldExcludeSession m s.id = false) := by
  refine ⟨sessionSort_perm _, sessionSort_sorted _, fun s => ?_⟩
  unfold GetAllSessions
  rw [sessionSort_mem]
  unfold visibleSessions
  rw [List.mem_filter]
  simp

/-! ### C10: shrinking the panel count leaves the slot table intact -/

/-- C10: when the clamped requested count is not larger than the current
one, `SetPanelCount` only rewrites the count: the slot table keeps all its
entries, including those at indices at or beyond the new count; a session
held in such an invisible entry still counts as assigned (so
`assignPanel` on it is a no-op), it is still collected into the occupant
list that `GetPanelSessions` sorts, and any entry survives a later
`SetPanelCount` of any value, so it becomes visible again when the count
grows. -/
theorem c10_setPanelCount_shrink_frame (m : Manager) (count : Int)
    (h : clampPanelCount count ≤ m.panels) :
    SetPanelCount m count = { m with panels := clampPanelCount count } ∧
    (∀ sessionID ∈ panelValues m.panelAssign,
      assignPanel { m with panels := clampPanelCount count } sessionID =
        { m with panels := clampPanelCount count }) ∧
    (∀ i sessionID s, (i, sessionID) ∈ m.panelAssign →
      findSession m.sessions sessionID = some s →
      s ∈ collectAssigned { m with panels := clampPanelCount count }) ∧
    (∀ count2 i sessionID, lookupPanel m.panelAssign i = some sessionID →
      lookupPanel (SetPanelCount m count2).panelAssign i = some sessionID) := by
  refine ⟨?_, ?_, ?_, ?_⟩
  · simp [SetPanelCount, Nat.not_lt.mpr h]
  · intro sessionID hmem
    exact assignPanel_assigned_noop _ sessionID hmem
  · intro i sessionID s hmem hfind
    exact List.mem_filterMap.mpr ⟨(i, sessionID), hmem, hfind⟩
  · intro count2 i sessionID hv
    unfold SetPanelCount
    simp only []
    split
    · unfold fillEmptyPanels
      exact lookupPanel_fillLoop_preserve _ _ _ i sessionID hv
    · exact hv

/-- Witness for C10: shrinking a 3-slot table to 1 keeps the entry at
slot 2, which resurfaces after growing back to 4. -/
theorem c10_setPanelCount_shrink_frame_witness :
    SetPanelCount
        { panels := 3
          sessions := [{ id := "a", path := "", parentID := "", isSubagent := false
                         messages := [], offset := 0, lastUpdate := 7 }]
          panelAssign := [(0, "x"), (1, "y"), (2, "a")]
          excludePatterns := defaultExcludePatterns } 1 =
      { panels := 1
        sessions := [{ id := "a", path := "", parentID := "", isSubagent := false
                       messages := [], offset := 0, lastUpdate := 7 }]
        panelAssign := [(0, "x"), (1, "y"), (2, "a")]
        excludePatterns := defaultExcludePatterns } ∧
    lookupPanel (SetPanelCount
        { panels := 3
          sessions := [{ id := "a", path := "", parentID := "", isSubagent := false
                         messages := [], offset := 0, lastUpdate := 7 }]
          panelAssign := [(0, "x"), (1, "y"), (2, "a")]
          excludePatterns := defaultExcludePatterns } 4).panelAssign 2 = some "a" := by
  constructor
  · exact (c10_setPanelCount_shrink_frame
      { panels := 3
        sessions := [{ id := "a", path := "", parentID := "", isSubagent := false
                       messages := [], offset := 0, lastUpdate := 7 }]
        panelAssign := [(0, "x"), (1, "y"), (2, "a")]
        excludePatterns := defaultExcludePatterns } 1 (by decide)).1
  · exact (c10_setPanelCount_shrink_frame
      { panels := 3
        sessions := [{ id := "a", path := "", parentID := "", isSubagent := false
                       messages := [], offset := 0, lastUpdate := 7 }]
        panelAssign := [(0, "x"), (1, "y"), (2, "a")]
        excludePatterns := defaultExcludePatterns } 1 (by decide)).2.2.2 4 2 "a" rfl

/-! ### C9: exclusion is visibility only -/

theorem mem_forestSessions_map (g : Session → Node) (l : List Session) (t : Session)
    (h : t ∈ forestSessions (l.map g)) : ∃ c ∈ l, t ∈ nodeSessions (g c) := by
  induction l with
  | nil => simp [forestSessions] at h
  | cons c cs ih =>
    simp only [List.map_cons, forestSessions] at h
    rcases List.mem_append.mp h with h2 | h2
    · exact ⟨c, List.mem_cons_self _ _, h2⟩
    · obtain ⟨c2, hc2, ht2⟩ := ih h2
      exact ⟨c2, List.mem_cons_of_mem _ hc2, ht2⟩

theorem nodeSessions_buildNode_sub (m : Manager) :
    ∀ (fuel : Nat) (s : Session), ∀ t ∈ nodeSessions (buildNode m fuel s),
      t = s ∨ t ∈ visibleSessions m := by
  intro fuel
  induction fuel with
  | zero =>
    intro s t ht
    simp only [buildNode, nodeSessions, forestSessions] at ht
    rcases List.mem_cons.mp ht with h | h
    · exact Or.inl h
    · simp at h
  | succ n ih =>
    intro s t ht
    simp only [buildNode, nodeSessions] at ht
    rcases List.mem_cons.mp ht with h | h
    · exact Or.inl h
    · right
      obtain ⟨c, hc, ht2⟩ := mem_forestSessions_map (buildNode m n) _ t h
      have hcv : c ∈ visibleSessions m := by
        have := (sessionSort_mem _ c).mp hc
        exact List.mem_of_mem_filter this
      rcases ih c t ht2 with h2 | h2
      · exact h2 ▸ hcv
      · exact h2

theorem forestSessions_tree_visible (m : Manager) :
    ∀ t ∈ forestSessions (GetSessionTree m), t ∈ visibleSessions m := by
  intro t ht
  unfold GetSessionTree at ht
  obtain ⟨c, hc, ht2⟩ := mem_forestSessions_map _ _ t ht
  have hcv : c ∈ visibleSessions m := by
    have := (sessionSort_mem _ c).mp hc
    exact List.mem_of_mem_filter this
  rcases nodeSessions_buildNode_sub m _ c t ht2 with h2 | h2
  · exact h2 ▸ hcv
  · exact h2

theorem panelValues_assignPanel_sub (m : Manager) (x : String) :
    ∀ w ∈ panelValues (assignPanel m x).panelAssign,
      w ∈ panelValues m.panelAssign ∨ w = x := by
  intro w hw
  unfold assignPanel at hw
  split at hw
  · exact Or.inl hw
  · split at hw
    · exact Or.inl hw
    · split at hw
      · exact panelValues_setPanel_sub _ _ _ w hw
      · simp only [] at hw
        split at hw
        · exact panelValues_setPanel_sub _ _ _ w hw
        · exact Or.inl hw

/-- C9: a session whose id matches an exclusion pattern never shows up in
`GetAllSessions`, never enters the slot table (directly, via another
assignment, or via a panel-count change), never appears in the hierarchy,
and is absent from every `GetPanelSessions` occupant — yet `GetSession`
still returns it and `UpdateSession` still appends to it. -/
theorem c9_exclusion_visibility (m : Manager) (sessionID : String)
    (hex : shouldExcludeSession m sessionID = true) :
    (∀ s ∈ GetAllSessions m, s.id ≠ sessionID) ∧
    assignPanel m sessionID = m ∧
    (sessionID ∉ panelValues m.panelAssign →
      ∀ x, sessionID ∉ panelValues (assignPanel m x).panelAssign) ∧
    (sessionID ∉ panelValues m.panelAssign →
      ∀ count, sessionID ∉ panelValues (SetPanelCount m count).panelAssign) ∧
    (∀ t ∈ forestSessions (GetSessionTree m), t.id ≠ sessionID) ∧
    GetSession m sessionID = findSession m.sessions sessionID ∧
    (∀ s msgs off now, findSession m.sessions sessionID = some s →
      findSession (UpdateSession m sessionID msgs off now).sessions sessionID =
        some { s with messages := s.messages ++ msgs, offset := off, lastUpdate := now }) ∧
    (sessionID ∉ panelValues m.panelAssign →
      ∀ os ∈ GetPanelSessions m, ∀ s, os = some s → s.id ≠ sessionID) := by
  have hvis : ∀ t ∈ visibleSessions m, t.id ≠ sessionID := by
    intro t htv heq
    have := (List.mem_filter.mp htv).2
    rw [heq, hex] at this
    simp at this
  refine ⟨?_, ?_, ?_, ?_, ?_, rfl, ?_, ?_⟩
  · intro s hs
    exact hvis s ((sessionSort_mem _ s).mp hs)
  · simp [assignPanel, hex]
  · intro hnot x hmem
    by_cases hx : x = sessionID
    · subst hx
      rw [show assignPanel m x = m from by simp [assignPanel, hex]] at hmem
      exact hnot hmem
    · rcases panelValues_assignPanel_sub m x sessionID hmem with h | h
      · exact hnot h
      · exact hx h.symm
  · intro hnot count hmem
    unfold SetPanelCount at hmem
    simp only [] at hmem
    split at hmem
    · unfold fillEmptyPanels at hmem
      rcases panelValues_fillLoop_sub _ _ _ sessionID hmem with h | h
      · exact hnot h
      · obtain ⟨u, hu, huid⟩ := List.mem_map.mp h
        have := (sessionSort_mem _ u).mp hu
        have hne := (List.mem_filter.mp this).2
        rw [huid] at hne
        simp only [Bool.and_eq_true, Bool.not_eq_true'] at hne
        rw [show shouldExcludeSession { m with panels := clampPanelCount count } sessionID =
            shouldExcludeSession m sessionID from rfl] at hne
        rw [hex] at hne
        exact absurd hne.2 (by simp)
    · exact hnot hmem
  · intro t ht
    exact hvis t (forestSessions_tree_visible m t ht)
  · intro s msgs off now h
    exact updateSession_found m sessionID s msgs off now h
  · intro hnot os hos s hsome heq
    subst heq
    unfold GetPanelSessions at hos
    obtain ⟨i, hi, hoseq⟩ := List.mem_map.mp hos
    rw [hsome] at hoseq
    have hsmem : s ∈ sessionSort (collectAssigned m) :=
      List.getElem?_mem hoseq
    have hcol : s ∈ collectAssigned m := (sessionSort_mem _ s).mp hsmem
    obtain ⟨e, he, hfe⟩ := List.mem_filterMap.mp hcol
    have hid := List.find?_some hfe
    simp only [beq_iff_eq] at hid
    apply hnot
    rw [hid]
    exact List.mem_map_of_mem Prod.snd he

/-- Witness for C9: the excluded session of `mgrExcludedParent` never
enters a slot but is still served by `GetSession`. -/
theorem c9_exclusion_visibility_witness :
    assignPanel mgrExcludedParent "p_prompt_suggestion" = mgrExcludedParent ∧
    GetSession mgrExcludedParent "p_prompt_suggestion" =
      findSession mgrExcludedParent.sessions "p_prompt_suggestion" :=
  ⟨(c9_exclusion_visibility mgrExcludedParent "p_prompt_suggestion" (by decide)).2.1,
   (c9_exclusion_visibility mgrExcludedParent "p_prompt_suggestion"
      (by decide)).2.2.2.2.2.1⟩

/-! ### C7: panel-count growth -/

theorem fillLoop_skip_occupied (l1 : List Nat) :
    ∀ (pa : List (Nat × String)) (l2 : List Nat) (us : List Session),
      (∀ i ∈ l1, (lookupPanel pa i).isSome) →
      fillLoop pa (l1 ++ l2) us = fillLoop pa l2 us := by
  induction l1 with
  | nil => intro pa l2 us _; rfl
  | cons i rest ih =>
    intro pa l2 us hocc
    rw [List.cons_append]
    simp only [fillLoop]
    have h2 := hocc i (List.mem_cons_self _ _)
    cases hx : lookupPanel pa i with
    | none => rw [hx] at h2; simp at h2
    | some v =>
      rw [if_neg (by simp [hx])]
      exact ih pa l2 us fun j hj => hocc j (List.mem_cons_of_mem _ hj)

theorem fillLoop_fill_free (k : Nat) :
    ∀ (j : Nat) (pa : List (Nat × String)) (us : List Session),
      (∀ i, j ≤ i → lookupPanel pa i = none) →
      k ≤ us.length →
      fillLoop pa (List.range' j k) us =
        pa ++ (List.range' j k).zip (us.map Session.id) := by
  induction k with
  | zero => intro j pa us _ _; simp [fillLoop]
  | succ n ih =>
    intro j pa us hfree hlen
    cases us with
    | nil => simp at hlen
    | cons u urest =>
      rw [List.range'_succ]
      simp only [fillLoop]
      rw [if_pos (by simp [hfree j (le_refl j)])]
      have hset : setPanel pa j u.id = pa ++ [(j, u.id)] := by
        unfold setPanel
        rw [if_neg ?_]
        have := hfree j (le_refl j)
        unfold lookupPanel at this
        cases hx : pa.find? (fun e => e.fst == j) with
        | none => simp
        | some e => rw [hx] at this; simp at this
      rw [hset]
      have hfree2 : ∀ i, j + 1 ≤ i → lookupPanel (pa ++ [(j, u.id)]) i = none := by
        intro i hi
        unfold lookupPanel
        rw [List.find?_append]
        have h1 := hfree i (Nat.le_of_succ_le hi)
        unfold lookupPanel at h1
        cases hx : pa.find? (fun e => e.fst == i) with
        | none =>
          simp only [hx, Option.none_or]
          have : (j == i) = false := by
            simp
            omega
          simp [this]
        | some e => rw [hx] at h1; simp at h1
      rw [ih (j + 1) (pa ++ [(j, u.id)]) urest hfree2 (by simpa using hlen)]
      simp [List.append_assoc, List.range'_succ]

/-- C7: `SetPanelCount` maps every requested count outside `[1,5]` to 1;
when the clamped count exceeds the old one and the old slots `0..M-1` are
exactly the occupied ones, the grown slots `M..N-1` are back-filled, in
index order, with the most-recently-updated previously unassigned
non-excluded sessions (the head of the exchange-sorted unassigned list),
every previously assigned entry staying exactly where it was. -/
theorem c7_setPanelCount_grow (m : Manager) (count : Int) :
    ((count < 1 ∨ 5 < count) → (SetPanelCount m count).panels = 1) ∧
    (∀ i sessionID, lookupPanel m.panelAssign i = some sessionID →
      lookupPanel (SetPanelCount m count).panelAssign i = some sessionID) ∧
    ((∀ i, (lookupPanel m.panelAssign i).isSome ↔ i < m.panels) →
      m.panels < clampPanelCount count →
      clampPanelCount count - m.panels ≤ (unassignedSessions m).length →
      (SetPanelCount m count).panelAssign =
        m.panelAssign ++
          (List.range' m.panels (clampPanelCount count - m.panels)).zip
            ((sessionSort (unassignedSessions m)).map Session.id) ∧
      (∀ u ∈ (sessionSort (unassignedSessions m)).take
          (clampPanelCount count - m.panels),
        ∀ w ∈ (sessionSort (unassignedSessions m)).drop
          (clampPanelCount count - m.panels),
        w.lastUpdate ≤ u.lastUpdate)) := by
  refine ⟨?_, ?_, ?_⟩
  · intro h
    unfold SetPanelCount clampPanelCount
    rcases h with h | h
    · simp only [if_pos h]
      split <;> rfl
    · have hn : ¬(count < 1) := by omega
      simp only [if_neg hn, if_pos h]
      split <;> rfl
  · intro i sessionID hv
    unfold SetPanelCount
    simp only []
    split
    · unfold fillEmptyPanels
      exact lookupPanel_fillLoop_preserve _ _ _ i sessionID hv
    · exact hv
  · intro hocc hgrow hlen
    constructor
    · unfold SetPanelCount
      simp only []
      rw [if_pos hgrow]
      unfold fillEmptyPanels
      have hm' : unassignedSessions { m with panels := clampPanelCount count } =
          unassignedSessions m := rfl
      rw [hm']
      have hsplit : List.range (clampPanelCount count) =
          List.range' 0 m.panels ++
            List.range' m.panels (clampPanelCount count - m.panels) := by
        have h1 := List.range'_append_1 0 m.panels
          (clampPanelCount count - m.panels)
        rw [Nat.zero_add] at h1
        rw [List.range_eq_range']
        nth_rewrite 1 [show clampPanelCount count =
          clampPanelCount count - m.panels + m.panels from by omega]
        exact h1.symm
      rw [hsplit]
      rw [fillLoop_skip_occupied (List.range' 0 m.panels) m.panelAssign _ _ ?_]
      · rw [fillLoop_fill_free (clampPanelCount count - m.panels) m.panels
          m.panelAssign _ ?_ ?_]
        · intro i hi
          have := hocc i
          cases hx : lookupPanel m.panelAssign i with
          | none => rfl
          | some v =>
            rw [hx] at this
            simp at this
            omega
        · rw [sessionSort_length]
          exact hlen
      · intro i hi
        have hilt : i < m.panels := by
          have := List.mem_range'.mp hi
          omega
        exact (hocc i).mpr hilt
    · intro u hu w hw
      have hsorted := sessionSort_sorted (unassignedSessions m)
      have hsplit := List.take_append_drop
        (clampPanelCount count - m.panels) (sessionSort (unassignedSessions m))
      rw [← hsplit] at hsorted
      have := (List.pairwise_append.mp hsorted).2.2
      exact this u hu w hw

/-- Witness for C7: growing `mgrGrow` from 1 slot to 3 keeps slot 0 and
back-fills slots 1 and 2 with the unassigned sessions newest-first. -/
theorem c7_setPanelCount_grow_witness :
    (SetPanelCount mgrGrow 3).panelAssign = [(0, "a"), (1, "c"), (2, "b")] := by
  have h := (c7_setPanelCount_grow mgrGrow 3).2.2 ?_ ?_ ?_
  · rw [h.1]
    decide
  · intro i
    cases i with
    | zero => simp [lookupPanel, mgrGrow]
    | succ n => simp [lookupPanel, mgrGrow]
  · decide
  · decide

/-! ### C1: LRU slot assignment -/

theorem find?_range'_spec (p : Nat → Bool) (k : Nat) :
    ∀ (s i : Nat), (List.range' s k).find? p = some i →
      i ∈ List.range' s k ∧ p i = true ∧ ∀ j, s ≤ j → j < i → p j = false := by
  induction k with
  | zero => intro s i h; simp at h
  | succ n ih =>
    intro s i h
    rw [List.range'_succ] at h
    by_cases hp : p s
    · rw [List.find?_cons_of_pos _ hp] at h
      obtain rfl : s = i := by simpa using h
      exact ⟨by rw [List.range'_succ]; exact List.mem_cons_self _ _, hp, by omega⟩
    · rw [List.find?_cons_of_neg _ hp] at h
      obtain ⟨hmem, hpi, hall⟩ := ih (s + 1) i h
      refine ⟨by rw [List.range'_succ]; exact List.mem_cons_of_mem _ hmem, hpi, ?_⟩
      intro j hj1 hj2
      by_cases hjs : j = s
      · subst hjs
        simpa using hp
      · exact hall j (by omega) hj2

theorem findEmptyPanel_some_spec (pa : List (Nat × String)) (n i : Nat)
    (h : findEmptyPanel pa n = some i) :
    i < n ∧ lookupPanel pa i = none ∧ ∀ j < i, (lookupPanel pa j).isSome := by
  unfold findEmptyPanel at h
  rw [List.range_eq_range'] at h
  obtain ⟨hmem, hpi, hall⟩ := find?_range'_spec _ n 0 i h
  refine ⟨by have := List.mem_range'.mp hmem; omega, by simpa using hpi, ?_⟩
  intro j hj
  have := hall j (Nat.zero_le j) hj
  cases hx : lookupPanel pa j with
  | none => rw [hx] at this; simp at this
  | some v => simp

theorem ofNat_beq_neg_one (bj : Nat) : (Int.ofNat bj == -1) = false := by
  simp only [beq_eq_false_iff_ne, Int.ofNat_eq_coe]
  omega

theorem getOldestPanelGo_min (ss : List Session) (pa : List (Nat × String)) :
    (∀ e ∈ pa, (findSession ss e.snd).isSome) →
    ∀ (bj : Nat) (bt : Nat),
      ∃ r rt, getOldestPanelGo ss pa (Int.ofNat bj) bt = Int.ofNat r ∧
        ((r = bj ∧ rt = bt) ∨
          (∃ v s, (r, v) ∈ pa ∧ findSession ss v = some s ∧ s.lastUpdate = rt)) ∧
        rt ≤ bt ∧
        (∀ e ∈ pa, ∀ s, findSession ss e.snd = some s → rt ≤ s.lastUpdate) := by
  induction pa with
  | nil =>
    intro _ bj bt
    exact ⟨bj, bt, rfl, Or.inl ⟨rfl, rfl⟩, le_refl _, by simp⟩
  | cons e rest ih =>
    intro hknown bj bt
    obtain ⟨p, v⟩ := e
    obtain ⟨s, hs⟩ := Option.isSome_iff_exists.mp (hknown (p, v) (List.mem_cons_self _ _))
    have hrest : ∀ e ∈ rest, (findSession ss e.snd).isSome :=
      fun e he => hknown e (List.mem_cons_of_mem _ he)
    simp only [getOldestPanelGo, hs, ofNat_beq_neg_one, Bool.false_or]
    by_cases hlt : s.lastUpdate < bt
    · rw [if_pos (decide_eq_true hlt)]
      obtain ⟨r, rt, heq, horig, hle, hmin⟩ := ih hrest p s.lastUpdate
      refine ⟨r, rt, heq, ?_, ?_, ?_⟩
      · rcases horig with ⟨h1, h2⟩ | ⟨v2, s2, hmem, hfind, hup⟩
        · exact Or.inr ⟨v, s, h1 ▸ List.mem_cons_self _ _, hs, h2.symm⟩
        · exact Or.inr ⟨v2, s2, List.mem_cons_of_mem _ hmem, hfind, hup⟩
      · exact le_trans hle (le_of_lt hlt)
      · intro e2 he2 t ht
        rcases List.mem_cons.mp he2 with h2 | h2
        · subst h2
          simp only at ht
          rw [hs] at ht
          obtain rfl : s = t := by simpa using ht
          exact hle
        · exact hmin e2 h2 t ht
    · rw [if_neg (by simpa using hlt)]
      obtain ⟨r, rt, heq, horig, hle, hmin⟩ := ih hrest bj bt
      refine ⟨r, rt, heq, ?_, hle, ?_⟩
      · rcases horig with h | ⟨v2, s2, hmem, hfind, hup⟩
        · exact Or.inl h
        · exact Or.inr ⟨v2, s2, List.mem_cons_of_mem _ hmem, hfind, hup⟩
      · intro e2 he2 t ht
        rcases List.mem_cons.mp he2 with h2 | h2
        · subst h2
          simp only at ht
          rw [hs] at ht
          obtain rfl : s = t := by simpa using ht
          omega
        · exact hmin e2 h2 t ht

theorem getOldestPanel_known_spec (m : Manager)
    (hknown : ∀ e ∈ m.panelAssign, (findSession m.sessions e.snd).isSome)
    (hne : m.panelAssign ≠ []) :
    ∃ r v s, getOldestPanel m = Int.ofNat r ∧ (r, v) ∈ m.panelAssign ∧
      findSession m.sessions v = some s ∧
      (∀ e ∈ m.panelAssign, ∀ t, findSession m.sessions e.snd = some t →
        s.lastUpdate ≤ t.lastUpdate) := by
  unfold getOldestPanel
  cases hpa : m.panelAssign with
  | nil => exact absurd hpa hne
  | cons e rest =>
    obtain ⟨p, v0⟩ := e
    obtain ⟨s0, hs0⟩ := Option.isSome_iff_exists.mp
      (hknown (p, v0) (hpa ▸ List.mem_cons_self _ _))
    have hrest : ∀ e ∈ rest, (findSession m.sessions e.snd).isSome :=
      fun e he => hknown e (hpa ▸ List.mem_cons_of_mem _ he)
    simp only [getOldestPanelGo, hs0]
    rw [if_pos (by simp)]
    obtain ⟨r, rt, heq, horig, hle, hmin⟩ :=
      getOldestPanelGo_min m.sessions rest hrest p s0.lastUpdate
    rcases horig with ⟨h1, h2⟩ | ⟨v2, s2, hmem, hfind, hup⟩
    · subst h1
      refine ⟨r, v0, s0, heq, List.mem_cons_self _ _, hs0, ?_⟩
      intro e2 he2 t ht
      rcases List.mem_cons.mp he2 with h3 | h3
      · subst h3
        simp only at ht
        rw [hs0] at ht
        obtain rfl : s0 = t := by simpa using ht
        exact le_refl _
      · have := hmin e2 h3 t ht
        omega
    · refine ⟨r, v2, s2, heq, List.mem_cons_of_mem _ hmem, hfind, ?_⟩
      intro e2 he2 t ht
      rcases List.mem_cons.mp he2 with h3 | h3
      · subst h3
        simp only at ht
        rw [hs0] at ht
        obtain rfl : s0 = t := by simpa using ht
        omega
      · have := hmin e2 h3 t ht
        omega

theorem getOldestPanelGo_unknown (ss : List Session) (pa : List (Nat × String)) :
    (∃ e ∈ pa, findSession ss e.snd = none) →
    ∀ (best : Int) (bt : Nat),
      ∃ r v, (r, v) ∈ pa ∧ findSession ss v = none ∧
        getOldestPanelGo ss pa best bt = Int.ofNat r := by
  induction pa with
  | nil => intro h; simp at h
  | cons e rest ih =>
    intro hex best bt
    obtain ⟨p, v⟩ := e
    cases hs : findSession ss v with
    | none =>
      exact ⟨p, v, List.mem_cons_self _ _, hs, by simp only [getOldestPanelGo, hs]⟩
    | some s =>
      have hex2 : ∃ e ∈ rest, findSession ss e.snd = none := by
        obtain ⟨e2, he2, hnone⟩ := hex
        rcases List.mem_cons.mp he2 with h2 | h2
        · subst h2
          simp only at hnone
          rw [hs] at hnone
          simp at hnone
        · exact ⟨e2, h2, hnone⟩
      simp only [getOldestPanelGo, hs]
      split
      · obtain ⟨r, v2, hmem, hnone, heq⟩ :=
          ih hex2 (Int.ofNat p) s.lastUpdate
        exact ⟨r, v2, List.mem_cons_of_mem _ hmem, hnone, heq⟩
      · obtain ⟨r, v2, hmem, hnone, heq⟩ := ih hex2 best bt
        exact ⟨r, v2, List.mem_cons_of_mem _ hmem, hnone, heq⟩

theorem panelValues_setPanel_entry (pa : List (Nat × String)) (r : Nat)
    (v sid : String) (hmem : (r, v) ∈ pa) :
    panelValues (setPanel pa r sid) =
      pa.map (fun e => if e.fst == r then sid else e.snd) := by
  unfold setPanel panelValues
  rw [if_pos ?_]
  · rw [List.map_map]
    apply List.map_congr_left
    intro e _
    by_cases h : e.fst = r <;> simp [Function.comp, h]
  · exact List.find?_isSome.mpr ⟨(r, v), hmem, by simp⟩

/-- C1: `assignPanel` on a non-excluded id: a no-op when the id already
occupies a slot; otherwise the lowest free slot below the panel count is
taken when one exists; otherwise, all slots being occupied, when all
occupants are known the slot overwritten is one whose occupant has the
minimum `lastUpdate` over all occupants — so exactly that occupant leaves
the table — and when some occupant is unknown to the store an
unknown-occupant slot is overwritten instead. -/
theorem c1_assignPanel_lru (m : Manager) (sessionID : String)
    (hex : shouldExcludeSession m sessionID = false) :
    (sessionID ∈ panelValues m.panelAssign → assignPanel m sessionID = m) ∧
    (∀ i, findEmptyPanel m.panelAssign m.panels = some i →
      sessionID ∉ panelValues m.panelAssign →
      (assignPanel m sessionID).panelAssign = setPanel m.panelAssign i sessionID ∧
      i < m.panels ∧ lookupPanel m.panelAssign i = none ∧
      (∀ j < i, (lookupPanel m.panelAssign j).isSome) ∧
      lookupPanel (assignPanel m sessionID).panelAssign i = some sessionID) ∧
    (findEmptyPanel m.panelAssign m.panels = none →
      sessionID ∉ panelValues m.panelAssign →
      (∀ e ∈ m.panelAssign, (findSession m.sessions e.snd).isSome) →
      m.panelAssign ≠ [] →
      ∃ r v s, (r, v) ∈ m.panelAssign ∧ findSession m.sessions v = some s ∧
        (assignPanel m sessionID).panelAssign = setPanel m.panelAssign r sessionID ∧
        (∀ e ∈ m.panelAssign, ∀ t, findSession m.sessions e.snd = some t →
          s.lastUpdate ≤ t.lastUpdate) ∧
        ((m.panelAssign.map Prod.fst).Nodup →
          (panelValues m.panelAssign).Nodup →
          v ∉ panelValues (assignPanel m sessionID).panelAssign ∧
          sessionID ∈ panelValues (assignPanel m sessionID).panelAssign ∧
          (∀ w ∈ panelValues m.panelAssign, w ≠ v →
            w ∈ panelValues (assignPanel m sessionID).panelAssign))) ∧
    (findEmptyPanel m.panelAssign m.panels = none →
      sessionID ∉ panelValues m.panelAssign →
      (∃ e ∈ m.panelAssign, findSession m.sessions e.snd = none) →
      ∃ r v, (r, v) ∈ m.panelAssign ∧ findSession m.sessions v = none ∧
        (assignPanel m sessionID).panelAssign = setPanel m.panelAssign r sessionID) := by
  refine ⟨fun h => assignPanel_assigned_noop m sessionID h, ?_, ?_, ?_⟩
  · intro i hempty hnot
    obtain ⟨hlt, hnone, hall⟩ :=
      findEmptyPanel_some_spec m.panelAssign m.panels i hempty
    have hany : ((panelValues m.panelAssign).any fun sid => sid == sessionID) = false := by
      rw [List.any_eq_false]
      intro x hx
      simp only [beq_iff_eq]
      intro heq
      exact hnot (heq ▸ hx)
    have hpa : (assignPanel m sessionID).panelAssign =
        setPanel m.panelAssign i sessionID := by
      simp only [assignPanel, hex, hany, Bool.false_eq_true, if_false, hempty]
    exact ⟨hpa, hlt, hnone, hall, by rw [hpa]; exact lookupPanel_setPanel_same _ _ _⟩
  · intro hempty hnot hknown hne
    have hany : ((panelValues m.panelAssign).any fun sid => sid == sessionID) = false := by
      rw [List.any_eq_false]
      intro x hx
      simp only [beq_iff_eq]
      intro heq
      exact hnot (heq ▸ hx)
    obtain ⟨r, v, s, hold, hmem, hfind, hmin⟩ := getOldestPanel_known_spec m hknown hne
    have hpa : (assignPanel m sessionID).panelAssign =
        setPanel m.panelAssign r sessionID := by
      simp only [assignPanel, hex, hany, Bool.false_eq_true, if_false, hempty, hold]
      rw [if_pos (show (0 : Int) ≤ Int.ofNat r from Int.ofNat_nonneg r)]
      simp
    refine ⟨r, v, s, hmem, hfind, hpa, hmin, ?_⟩
    intro hknd hvnd
    have hvals := panelValues_setPanel_entry m.panelAssign r v sessionID hmem
    have hkp : m.panelAssign.Pairwise (fun a b => a.fst ≠ b.fst) :=
      (List.pairwise_map.mp hknd)
    have hvp : m.panelAssign.Pairwise (fun a b => a.snd ≠ b.snd) :=
      (List.pairwise_map.mp hvnd)
    have hkey_uniq : ∀ e ∈ m.panelAssign, e.fst = r → e = (r, v) := by
      intro e he hef
      by_cases heq : e = (r, v)
      · exact heq
      · have := List.Pairwise.forall (fun a b h => (h ·.symm)) hkp he hmem heq
        simp only at this
        exact absurd hef this
    have hval_uniq : ∀ e ∈ m.panelAssign, e.snd = v → e = (r, v) := by
      intro e he hes
      by_cases heq : e = (r, v)
      · exact heq
      · have := List.Pairwise.forall (fun a b h => (h ·.symm)) hvp he hmem heq
        simp only at this
        exact absurd hes this
    rw [hpa, hvals]
    refine ⟨?_, ?_, ?_⟩
    · intro hvin
      obtain ⟨e, he, heq⟩ := List.mem_map.mp hvin
      by_cases hr : e.fst = r
      · rw [if_pos (by simp [hr])] at heq
        apply hnot
        rw [heq]
        exact List.mem_map_of_mem Prod.snd hmem
      · rw [if_neg (by simp [hr])] at heq
        have := hval_uniq e he heq
        rw [this] at hr
        exact hr rfl
    · exact List.mem_map.mpr ⟨(r, v), hmem, by simp⟩
    · intro w hw hwv
      obtain ⟨e, he, heq⟩ := List.mem_map.mp hw
      by_cases hr : e.fst = r
      · have h2 := hkey_uniq e he hr
        rw [h2] at heq
        exact absurd heq.symm hwv
      · exact List.mem_map.mpr ⟨e, he, by rw [if_neg (by simp [hr])]; exact heq⟩
  · intro hempty hnot hunknown
    have hany : ((panelValues m.panelAssign).any fun sid => sid == sessionID) = false := by
      rw [List.any_eq_false]
      intro x hx
      simp only [beq_iff_eq]
      intro heq
      exact hnot (heq ▸ hx)
    obtain ⟨r, v, hmem, hnone, heq⟩ :=
      getOldestPanelGo_unknown m.sessions m.panelAssign hunknown (-1) 0
    have hpa : (assignPanel m sessionID).panelAssign =
        setPanel m.panelAssign r sessionID := by
      have hold : getOldestPanel m = Int.ofNat r := heq
      simp only [assignPanel, hex, hany, Bool.false_eq_true, if_false, hempty]
      rw [if_pos (by rw [hold]; exact show (0 : Int) ≤ Int.ofNat r from Int.ofNat_nonneg r)]
      rw [hold]
      simp
    exact ⟨r, v, hmem, hnone, hpa⟩

/-- Witness for C1: on a full single-slot table the LRU branch overwrites
slot 0, and an already-assigned id is a no-op. -/
theorem c1_assignPanel_lru_witness :
    assignPanel { mgrGrow with panelAssign := [(0, "c")] } "c" =
      { mgrGrow with panelAssign := [(0, "c")] } ∧
    (assignPanel mgrGrow "c").panelAssign = [(0, "c")] := by
  constructor
  · exact (c1_assignPanel_lru { mgrGrow with panelAssign := [(0, "c")] } "c"
      (by decide)).1 (by decide)
  · obtain ⟨r, v, s, hmem, hfind, hpa, hmin, _⟩ :=
      (c1_assignPanel_lru mgrGrow "c" (by decide)).2.2.1
        (by decide) (by decide) (by decide) (by decide)
    have hr : r = 0 ∧ v = "a" := by
      simpa [mgrGrow] using hmem
    rw [hpa, hr.1]
    decide

/-! ### C2: order-preserving reconciliation -/

theorem bool_eq_of_iff {a b : Bool} (h : a = true ↔ b = true) : a = b := by
  cases a <;> cases b <;> simp_all

@[simp] theorem Node.session_mk (s : Session) (c : List Node) (e : Bool) :
    (Node.mk s c e).session = s := rfl

@[simp] theorem Node.children_mk (s : Session) (c : List Node) (e : Bool) :
    (Node.mk s c e).children = c := rfl

@[simp] theorem Node.expanded_mk (s : Session) (c : List Node) (e : Bool) :
    (Node.mk s c e).expanded = e := rfl

theorem lookupNode_some (ns : List Node) (i : String) (n : Node)
    (h : lookupNode ns i = some n) : n ∈ ns ∧ n.session.id = i := by
  unfold lookupNode at h
  have hmem := List.mem_of_getLast?_eq_some h
  have := List.mem_filter.mp hmem
  exact ⟨this.1, by simpa using this.2⟩

theorem lookupNode_isSome_iff (ns : List Node) (i : String) :
    (lookupNode ns i).isSome = true ↔ ∃ n ∈ ns, n.session.id = i := by
  unfold lookupNode
  rw [Option.isSome_iff_ne_none]
  constructor
  · intro h
    cases hx : (ns.filter (fun n => n.session.id == i)).getLast? with
    | none => exact absurd hx h
    | some n =>
      have hmem := List.mem_of_getLast?_eq_some hx
      have := List.mem_filter.mp hmem
      exact ⟨n, this.1, by simpa using this.2⟩
  · rintro ⟨n, hn, hid⟩ hc
    rw [Option.eq_none_iff_forall_not_mem] at hc
    have hfil : n ∈ ns.filter (fun n => n.session.id == i) :=
      List.mem_filter.mpr ⟨hn, by simp [hid]⟩
    have hne : ns.filter (fun n => n.session.id == i) ≠ [] := by
      intro h0
      rw [h0] at hfil
      simp at hfil
    have := List.getLast?_isSome.mpr hne
    obtain ⟨x, hx⟩ := Option.isSome_iff_exists.mp this
    exact hc x (by rw [hx]; exact Option.mem_some_iff.mpr rfl)

theorem nodeIds_matchOldNodes (old new_ : List Node) :
    nodeIds (matchOldNodes old new_) =
      (nodeIds old).filter (fun i => (lookupNode new_ i).isSome) := by
  induction old with
  | nil => simp [matchOldNodes, nodeIds]
  | cons o rest ih =>
    obtain ⟨os, oc, oe⟩ := o
    unfold nodeIds at ih ⊢
    simp only [matchOldNodes]
    cases hl : lookupNode new_ os.id with
    | some nn =>
      have hid : nn.session.id = os.id := (lookupNode_some new_ os.id nn hl).2
      have hsome : (lookupNode new_ os.id).isSome = true := by rw [hl]; rfl
      simp only [List.map_cons, List.filter_cons, Node.session_mk]
      rw [if_pos hsome, hid]
      rw [ih]
    | none =>
      have hnone : ¬((lookupNode new_ os.id).isSome = true) := by rw [hl]; simp
      simp only [List.map_cons, List.filter_cons, Node.session_mk]
      rw [if_neg hnone]
      exact ih

theorem mem_seenIds (old new_ : List Node) (i : String) :
    i ∈ seenIds old new_ ↔
      (∃ o ∈ old, o.session.id = i) ∧ (lookupNode new_ i).isSome = true := by
  unfold seenIds
  rw [List.mem_map]
  constructor
  · rintro ⟨o, ho, rfl⟩
    have := List.mem_filter.mp ho
    exact ⟨⟨o, this.1, rfl⟩, this.2⟩
  · rintro ⟨⟨o, ho, rfl⟩, hsome⟩
    exact ⟨o, List.mem_filter.mpr ⟨ho, hsome⟩, rfl⟩

theorem seen_any_iff (old new_ : List Node) (n : Node) (hn : n ∈ new_) :
    ((seenIds old new_).any (fun i => i == n.session.id)) =
      (old.any (fun o => o.session.id == n.session.id)) := by
  apply bool_eq_of_iff
  rw [List.any_eq_true, List.any_eq_true]
  constructor
  · rintro ⟨j, hj, hje⟩
    obtain ⟨⟨o, ho, hoid⟩, _⟩ := (mem_seenIds old new_ j).mp hj
    refine ⟨o, ho, ?_⟩
    simp only [beq_iff_eq] at hje ⊢
    rw [hoid, hje]
  · rintro ⟨o, ho, hoid⟩
    simp only [beq_iff_eq] at hoid
    refine ⟨n.session.id, ?_, by simp⟩
    rw [mem_seenIds]
    exact ⟨⟨o, ho, hoid⟩, (lookupNode_isSome_iff _ _).mpr ⟨n, hn, rfl⟩⟩

theorem nodeIds_reconcile (old new_ : List Node) :
    nodeIds (matchOldNodes old new_ ++
        new_.filter (fun n => !((seenIds old new_).any (fun i => i == n.session.id)))) =
      (nodeIds old).filter (fun i => new_.any (fun n => n.session.id == i)) ++
      (nodeIds new_).filter (fun i => !(old.any (fun o => o.session.id == i))) := by
  unfold nodeIds
  rw [List.map_append]
  congr 1
  · have h1 := nodeIds_matchOldNodes old new_
    unfold nodeIds at h1
    rw [h1]
    apply List.filter_congr
    intro i _
    apply bool_eq_of_iff
    rw [lookupNode_isSome_iff, List.any_eq_true]
    constructor
    · rintro ⟨n, hn, hid⟩
      exact ⟨n, hn, by simp [hid]⟩
    · rintro ⟨n, hn, hid⟩
      exact ⟨n, hn, by simpa using hid⟩
  · rw [List.filter_map]
    congr 1
    apply List.filter_congr
    intro n hn
    rw [seen_any_iff old new_ n hn]
    rfl

theorem preserveOrder_ids (old new_ : List Node) :
    nodeIds (preserveOrder old new_) =
      (nodeIds old).filter (fun i => new_.any (fun n => n.session.id == i)) ++
      (nodeIds new_).filter (fun i => !(old.any (fun o => o.session.id == i))) :=
  nodeIds_reconcile old new_

theorem preserveChildOrder_ids (old new_ : List Node) :
    nodeIds (preserveChildOrder old new_) =
      (nodeIds old).filter (fun i => new_.any (fun n => n.session.id == i)) ++
      (nodeIds new_).filter (fun i => !(old.any (fun o => o.session.id == i))) := by
  cases old with
  | nil =>
    simp only [preserveChildOrder, List.isEmpty_nil, if_true, nodeIds,
      List.map_nil, List.filter_nil, List.nil_append, List.any_nil,
      Bool.not_false, List.filter_true]
  | cons o rest =>
    rw [preserveChildOrder]
    rw [if_neg (by simp)]
    exact nodeIds_reconcile (o :: rest) new_

theorem filter_present_all (old new_ : List Node)
    (h : ∀ i ∈ nodeIds old, i ∈ nodeIds new_) :
    (nodeIds old).filter (fun i => new_.any (fun n => n.session.id == i)) =
      nodeIds old := by
  rw [List.filter_eq_self]
  intro i hi
  obtain ⟨n, hn, hid⟩ := List.mem_map.mp (h i hi)
  exact List.any_eq_true.mpr ⟨n, hn, by simp [hid]⟩

/-- C2: the reconciliation of a new forest against the previously
displayed one keeps, at every level, the ids present in both forests in
their old relative order, then appends the first-time ids in encounter
order; each matched old node's children are reconciled by the same rule;
and when the new forest's root ids are the old ones plus a single fresh
root, the result's root order is the old order with the fresh root
appended last. -/
theorem c2_preserveOrder_keeps_order (old new_ : List Node) :
    (nodeIds (preserveOrder old new_) =
      (nodeIds old).filter (fun i => new_.any (fun n => n.session.id == i)) ++
      (nodeIds new_).filter (fun i => !(old.any (fun o => o.session.id == i)))) ∧
    (∀ old2 new2 : List Node,
      nodeIds (preserveChildOrder old2 new2) =
        (nodeIds old2).filter (fun i => new2.any (fun n => n.session.id == i)) ++
        (nodeIds new2).filter (fun i => !(old2.any (fun o => o.session.id == i)))) ∧
    (∀ os oc oe nn rest, lookupNode new_ os.id = some nn →
      matchOldNodes (Node.mk os oc oe :: rest) new_ =
        Node.mk nn.session (preserveChildOrder oc nn.children) nn.expanded ::
          matchOldNodes rest new_) ∧
    (∀ x : String, (∀ o ∈ old, o.session.id ≠ x) →
      List.Perm (nodeIds new_) (nodeIds old ++ [x]) →
      nodeIds (preserveOrder old new_) = nodeIds old ++ [x]) := by
  refine ⟨preserveOrder_ids old new_, preserveChildOrder_ids,
    ?_, ?_⟩
  · intro os oc oe nn rest h
    simp only [matchOldNodes, h]
  · intro x hx hperm
    rw [preserveOrder_ids]
    have h1 := filter_present_all old new_ (fun i hi =>
      hperm.mem_iff.mpr (List.mem_append.mpr (Or.inl hi)))
    have h2 : (nodeIds new_).filter
        (fun i => !(old.any (fun o => o.session.id == i))) = [x] := by
      have hp := hperm.filter (fun i => !(old.any (fun o => o.session.id == i)))
      rw [List.filter_append] at hp
      have hold : (nodeIds old).filter
          (fun i => !(old.any (fun o => o.session.id == i))) = [] := by
        rw [List.filter_eq_nil_iff]
        intro i hi hcon
        obtain ⟨o, ho, hid⟩ := List.mem_map.mp hi
        have hany : old.any (fun o => o.session.id == i) = true :=
          List.any_eq_true.mpr ⟨o, ho, by simp [hid]⟩
        rw [hany] at hcon
        simp at hcon
      have hxf : ([x]).filter
          (fun i => !(old.any (fun o => o.session.id == i))) = [x] := by
        have hany : old.any (fun o => o.session.id == x) = false := by
          rw [List.any_eq_false]
          intro o ho
          simp only [beq_iff_eq]
          exact hx o ho
        simp [List.filter_cons, hany]
      rw [hold, hxf] at hp
      exact List.perm_singleton.mp (by simpa using hp)
    rw [h1, h2]

/-- Witness for C2: adding root `r3` to a two-root forest keeps the old
order `r1, r2` and appends `r3` last, whatever order the rebuilt forest
delivers. -/
theorem c2_preserveOrder_keeps_order_witness :
    nodeIds (preserveOrder
        [Node.mk (testSession "r1" "" 1) [] true,
         Node.mk (testSession "r2" "" 2) [] true]
        [Node.mk (testSession "r3" "" 9) [] true,
         Node.mk (testSession "r2" "" 2) [] true,
         Node.mk (testSession "r1" "" 1) [] true]) = ["r1", "r2", "r3"] := by
  have h := (c2_preserveOrder_keeps_order
      [Node.mk (testSession "r1" "" 1) [] true,
       Node.mk (testSession "r2" "" 2) [] true]
      [Node.mk (testSession "r3" "" 9) [] true,
       Node.mk (testSession "r2" "" 2) [] true,
       Node.mk (testSession "r1" "" 1) [] true]).2.2.2 "r3"
    (by decide) (by decide)
  rw [h]
  decide

/-! ### C3: hierarchy building -/

theorem upChain_mono (V : List Session) :
    ∀ (f f2 : Nat) (v : Session) (c : List Session),
      upChain V f v = some c → f ≤ f2 → upChain V f2 v = some c := by
  intro f
  induction f with
  | zero => intro f2 v c h; simp [upChain] at h
  | succ n ih =>
    intro f2 v c h hle
    cases f2 with
    | zero => omega
    | succ n2 =>
      rw [upChain] at h ⊢
      by_cases hp : v.parentID = ""
      · rw [if_pos hp] at h ⊢
        exact h
      · rw [if_neg hp] at h ⊢
        cases hf : V.find? (fun t => t.id == v.parentID) with
        | none => rw [hf] at h; simp at h
        | some p =>
          rw [hf] at h
          simp only [Option.map_eq_some'] at h
          obtain ⟨cp, hcp, rfl⟩ := h
          show Option.map (fun c => v :: c) (upChain V n2 p) = some (v :: cp)
          rw [ih n2 p cp hcp (by omega)]
          rfl

theorem upChain_head (V : List Session) (f : Nat) (v : Session) (c : List Session)
    (h : upChain V f v = some c) : ∃ c2, c = v :: c2 := by
  cases f with
  | zero => simp [upChain] at h
  | succ n =>
    rw [upChain] at h
    by_cases hp : v.parentID = ""
    · rw [if_pos hp] at h
      exact ⟨[], by simpa using h.symm⟩
    · rw [if_neg hp] at h
      cases hf : V.find? (fun t => t.id == v.parentID) with
      | none => rw [hf] at h; simp at h
      | some p =>
        rw [hf] at h
        simp only [Option.map_eq_some'] at h
        obtain ⟨cp, _, rfl⟩ := h
        exact ⟨cp, rfl⟩

theorem upChain_mem_suffix (V : List Session) :
    ∀ (f : Nat) (v : Session) (c : List Session), upChain V f v = some c →
      ∀ s ∈ c, ∃ cs, upChain V f s = some cs ∧ cs.IsSuffix c := by
  intro f
  induction f with
  | zero => intro v c h; simp [upChain] at h
  | succ n ih =>
    intro v c h s hs
    have hh := upChain_head V (n + 1) v c h
    obtain ⟨c2, rfl⟩ := hh
    rcases List.mem_cons.mp hs with rfl | hs2
    · exact ⟨s :: c2, h, List.suffix_refl _⟩
    · rw [upChain] at h
      by_cases hp : v.parentID = ""
      · rw [if_pos hp] at h
        simp at h
        rw [h] at hs2
        simp at hs2
      · rw [if_neg hp] at h
        cases hf : V.find? (fun t => t.id == v.parentID) with
        | none => rw [hf] at h; simp at h
        | some p =>
          rw [hf] at h
          simp only [Option.map_eq_some'] at h
          obtain ⟨cp, hcp, heq⟩ := h
          have hcc : cp = c2 := by simpa using heq
          rw [← hcc] at hs2
          obtain ⟨cs, hcs, hsuf⟩ := ih p cp hcp s hs2
          refine ⟨cs, upChain_mono V n (n + 1) s cs hcs (by omega), ?_⟩
          rw [← hcc]
          exact hsuf.trans (List.suffix_cons _ _)

theorem find_by_id (V : List Session) (hnd : (V.map Session.id).Nodup)
    (s : Session) (hs : s ∈ V) :
    V.find? (fun t => t.id == s.id) = some s := by
  induction V with
  | nil => simp at hs
  | cons t rest ih =>
    rcases List.mem_cons.mp hs with rfl | hs2
    · exact List.find?_cons_of_pos _ (by simp)
    · have hnd' : (List.map Session.id (t :: rest)).Nodup := hnd
      rw [List.map_cons] at hnd'
      have hnd2 := List.nodup_cons.mp hnd' 
      have htid : t.id ≠ s.id := by
        intro heq
        exact hnd2.1 (heq ▸ List.mem_map_of_mem Session.id hs2)
      rw [List.find?_cons_of_neg _ (by simp [htid])]
      exact ih hnd2.2 hs2

theorem upChain_mem_V (V : List Session) :
    ∀ (f : Nat) (v : Session) (c : List Session), upChain V f v = some c →
      ∀ s ∈ c, s = v ∨ s ∈ V := by
  intro f
  induction f with
  | zero => intro v c h; simp [upChain] at h
  | succ n ih =>
    intro v c h s hs
    rw [upChain] at h
    by_cases hp : v.parentID = ""
    · rw [if_pos hp] at h
      simp at h
      rw [← h] at hs
      simp at hs
      exact Or.inl hs
    · rw [if_neg hp] at h
      cases hf : V.find? (fun t => t.id == v.parentID) with
      | none => rw [hf] at h; simp at h
      | some p =>
        rw [hf] at h
        simp only [Option.map_eq_some'] at h
        obtain ⟨cp, hcp, heq⟩ := h
        rw [← heq] at hs
        rcases List.mem_cons.mp hs with rfl | hs2
        · exact Or.inl rfl
        · rcases ih p cp hcp s hs2 with rfl | h2
          · exact Or.inr (List.mem_of_find?_eq_some hf)
          · exact Or.inr h2

theorem chainOf_child_eq (V : List Session) (hnd : (V.map Session.id).Nodup)
    (s c : Session) (hs : s ∈ V) (hpne : c.parentID ≠ "")
    (hpid : c.parentID = s.id) (cc : List Session)
    (h : chainOf V c = some cc) :
    ∃ cs, chainOf V s = some cs ∧ cc = c :: cs := by
  unfold chainOf at h ⊢
  cases hn : V.length with
  | zero => rw [hn] at h; simp [upChain] at h
  | succ k =>
    rw [hn] at h
    rw [upChain, if_neg hpne, hpid, find_by_id V hnd s hs] at h
    simp only [Option.map_eq_some'] at h
    obtain ⟨cs, hcs, heq⟩ := h
    exact ⟨cs, upChain_mono V k (k + 1) s cs hcs (by omega), heq.symm⟩

theorem suffix_eq_of_length {α : Type} (l1 l2 l : List α)
    (h1 : l1.IsSuffix l) (h2 : l2.IsSuffix l) (hlen : l1.length = l2.length) :
    l1 = l2 := by
  obtain ⟨t1, rfl⟩ := h1
  obtain ⟨t2, heq⟩ := h2
  have hlent : t2.length = t1.length := by
    have := congrArg List.length heq
    simp at this
    omega
  exact ((List.append_inj heq hlent).2).symm

theorem inChain_iff (V : List Session) (anc v : Session) :
    inChain V anc v = true ↔ ∃ c, chainOf V v = some c ∧ anc ∈ c := by
  unfold inChain
  cases h : chainOf V v with
  | none => simp
  | some c =>
    simp only [List.any_eq_true, beq_iff_eq]
    constructor
    · rintro ⟨t, ht, rfl⟩
      exact ⟨c, rfl, ht⟩
    · rintro ⟨c2, hc2, hanc⟩
      obtain rfl : c = c2 := by simpa using hc2
      exact ⟨anc, hanc, rfl⟩

theorem inChain_self (V : List Session) (v : Session) (c : List Session)
    (h : chainOf V v = some c) : inChain V v v = true := by
  rw [inChain_iff]
  obtain ⟨c2, rfl⟩ := upChain_head V V.length v c h
  exact ⟨v :: c2, h, List.mem_cons_self _ _⟩

theorem chainOf_defined (V : List Session) (hroot : rootedForest V = true)
    (s : Session) (hs : s ∈ V) : ∃ c, chainOf V s = some c := by
  unfold rootedForest at hroot
  have := List.all_eq_true.mp hroot s hs
  exact Option.isSome_iff_exists.mp this

theorem chainOf_mem_V (V : List Session) (v : Session) (c : List Session)
    (hv : v ∈ V) (h : chainOf V v = some c) : ∀ s ∈ c, s ∈ V := by
  intro s hs
  rcases upChain_mem_V V V.length v c h s hs with rfl | h2
  · exact hv
  · exact h2

theorem chainOf_parent (V : List Session) (v : Session) (ch : List Session)
    (h : chainOf V v = some ch) (hpne : v.parentID ≠ "") :
    ∃ p chp, V.find? (fun t => t.id == v.parentID) = some p ∧
      chainOf V p = some chp ∧ ch = v :: chp := by
  unfold chainOf at h ⊢
  cases hn : V.length with
  | zero => rw [hn] at h; simp [upChain] at h
  | succ k =>
    rw [hn] at h
    rw [upChain, if_neg hpne] at h
    cases hf : V.find? (fun t => t.id == v.parentID) with
    | none => rw [hf] at h; simp at h
    | some p =>
      rw [hf] at h
      simp only [Option.map_eq_some'] at h
      obtain ⟨chp, hchp, heq⟩ := h
      exact ⟨p, chp, rfl, upChain_mono V k (k + 1) p chp hchp (by omega), heq.symm⟩

theorem chainOf_root (V : List Session) (v : Session) (ch : List Session)
    (h : chainOf V v = some ch) (hp : v.parentID = "") : ch = [v] := by
  unfold chainOf at h
  cases hn : V.length with
  | zero => rw [hn] at h; simp [upChain] at h
  | succ k =>
    rw [hn] at h
    rw [upChain, if_pos hp] at h
    simpa using h.symm

theorem mem_childFilter (V : List Session) (i : String) (c : Session) :
    c ∈ childFilter V i ↔ c ∈ V ∧ c.parentID ≠ "" ∧ c.parentID = i := by
  unfold childFilter
  rw [List.mem_filter]
  simp

theorem inChain_child_up (V : List Session) (hnd : (V.map Session.id).Nodup)
    (s c : Session) (hs : s ∈ V) (hchild : c ∈ childFilter V s.id) :
    ∀ v, inChain V c v = true → inChain V s v = true := by
  intro v hv
  obtain ⟨hcV, hpne, hpid⟩ := (mem_childFilter V s.id c).mp hchild
  obtain ⟨ch, hch, hcin⟩ := (inChain_iff V c v).mp hv
  obtain ⟨cc, hcc, hsuf⟩ := upChain_mem_suffix V V.length v ch hch c hcin
  obtain ⟨cs, hcs, hcceq⟩ := chainOf_child_eq V hnd s c hs hpne hpid cc hcc
  obtain ⟨cs2, rfl⟩ := upChain_head V V.length s cs hcs
  rw [inChain_iff]
  refine ⟨ch, hch, ?_⟩
  apply hsuf.subset
  rw [hcceq]
  exact List.mem_cons_of_mem _ (List.mem_cons_self _ _)

theorem inChain_parent_not_down (V : List Session) (hnd : (V.map Session.id).Nodup)
    (s c : Session) (hs : s ∈ V) (hchild : c ∈ childFilter V s.id) :
    inChain V c s = false := by
  obtain ⟨hcV, hpne, hpid⟩ := (mem_childFilter V s.id c).mp hchild
  cases hic : inChain V c s with
  | false => rfl
  | true =>
    obtain ⟨css, hcss, hcin⟩ := (inChain_iff V c s).mp hic
    obtain ⟨cc, hcc, hsuf⟩ := upChain_mem_suffix V V.length s css hcss c hcin
    obtain ⟨cs, hcs, hcceq⟩ := chainOf_child_eq V hnd s c hs hpne hpid cc hcc
    obtain rfl : css = cs := by rw [hcss] at hcs; simpa using hcs
    have hlen := hsuf.length_le
    rw [hcceq] at hlen
    simp at hlen

theorem child_unique (V : List Session) (hnd : (V.map Session.id).Nodup)
    (s : Session) (hs : s ∈ V) (c1 c2 v : Session)
    (h1 : c1 ∈ childFilter V s.id) (h2 : c2 ∈ childFilter V s.id)
    (hv1 : inChain V c1 v = true) (hv2 : inChain V c2 v = true) : c1 = c2 := by
  obtain ⟨h1V, h1ne, h1id⟩ := (mem_childFilter V s.id c1).mp h1
  obtain ⟨h2V, h2ne, h2id⟩ := (mem_childFilter V s.id c2).mp h2
  obtain ⟨ch, hch, hcin1⟩ := (inChain_iff V c1 v).mp hv1
  obtain ⟨ch2, hch2, hcin2⟩ := (inChain_iff V c2 v).mp hv2
  obtain rfl : ch = ch2 := by rw [hch] at hch2; simpa using hch2
  obtain ⟨cc1, hcc1, hsuf1⟩ := upChain_mem_suffix V V.length v ch hch c1 hcin1
  obtain ⟨cc2, hcc2, hsuf2⟩ := upChain_mem_suffix V V.length v ch hch c2 hcin2
  obtain ⟨cs1, hcs1, heq1⟩ := chainOf_child_eq V hnd s c1 hs h1ne h1id cc1 hcc1
  obtain ⟨cs2, hcs2, heq2⟩ := chainOf_child_eq V hnd s c2 hs h2ne h2id cc2 hcc2
  obtain rfl : cs1 = cs2 := by rw [hcs1] at hcs2; simpa using hcs2
  have : cc1 = cc2 := by
    apply suffix_eq_of_length cc1 cc2 ch hsuf1 hsuf2
    rw [heq1, heq2]
    simp
  rw [heq1, heq2] at this
  exact (List.cons_eq_cons.mp this).1

theorem child_exists_aux (V : List Session) (_hnd : (V.map Session.id).Nodup)
    (s : Session) :
    ∀ (n : Nat) (v : Session) (ch : List Session), ch.length ≤ n →
      chainOf V v = some ch → s ∈ ch → v ≠ s → v ∈ V →
      ∃ c ∈ childFilter V s.id, inChain V c v = true := by
  intro n
  induction n with
  | zero =>
    intro v ch hlen hch hsin _ _
    obtain ⟨c2, rfl⟩ := upChain_head V V.length v ch hch
    simp at hlen
  | succ n ih =>
    intro v ch hlen hch hsin hvs hvV
    by_cases hpne : v.parentID = ""
    · have := chainOf_root V v ch hch hpne
      rw [this] at hsin
      simp at hsin
      exact absurd hsin.symm hvs
    · obtain ⟨p, chp, hf, hchp, rfl⟩ := chainOf_parent V v ch hch hpne
      have hsin2 : s ∈ chp := by
        rcases List.mem_cons.mp hsin with heq | h2
        · exact absurd heq.symm hvs
        · exact h2
      have hpid : p.id = v.parentID := by
        have := List.find?_some hf
        simpa using this
      by_cases hps : p = s
      · refine ⟨v, ?_, inChain_self V v _ hch⟩
        rw [mem_childFilter]
        exact ⟨hvV, hpne, by rw [← hps, hpid]⟩
      · have hchp_len : chp.length ≤ n := by
          simp at hlen
          omega
        obtain ⟨c, hc, hcp⟩ := ih p chp hchp_len hchp hsin2 hps
          (List.mem_of_find?_eq_some hf)
        refine ⟨c, hc, ?_⟩
        obtain ⟨chp2, hchp2, hcin⟩ := (inChain_iff V c p).mp hcp
        obtain rfl : chp = chp2 := by rw [hchp] at hchp2; simpa using hchp2
        rw [inChain_iff]
        exact ⟨v :: chp, hch, List.mem_cons_of_mem _ hcin⟩

theorem countP_eq_one_of_unique {α : Type} (p : α → Bool) (l : List α) :
    l.Nodup → ∀ a ∈ l, p a = true → (∀ b ∈ l, p b = true → b = a) →
      l.countP p = 1 := by
  induction l with
  | nil => intro _ a ha; simp at ha
  | cons x rest ih =>
    intro hnd a ha hp huniq
    rw [List.countP_cons]
    rcases List.mem_cons.mp ha with heq | ha2
    · subst heq
      rw [if_pos hp, List.countP_eq_zero.mpr ?_]
      intro b hb hpb
      have hba := huniq b (List.mem_cons_of_mem _ hb) hpb
      rw [hba] at hb
      exact (List.nodup_cons.mp hnd).1 hb
    · have hx : p x = false := by
        cases hpx : p x with
        | false => rfl
        | true =>
          have hxa := huniq x (List.mem_cons_self _ _) hpx
          rw [hxa] at hnd
          exact absurd ha2 (List.nodup_cons.mp hnd).1
      rw [hx]
      simp only [Bool.false_eq_true, if_false, Nat.add_zero]
      exact ih (List.nodup_cons.mp hnd).2 a ha2 hp
        (fun b hb hpb => huniq b (List.mem_cons_of_mem _ hb) hpb)

theorem countP_indicator_sum {α : Type} (p : α → Bool) (l : List α) :
    l.countP p = (l.map (fun x => if p x then 1 else 0)).sum := by
  induction l with
  | nil => simp
  | cons x rest ih =>
    rw [List.countP_cons, List.map_cons, List.sum_cons, ih]
    omega

theorem sum_map_add {α : Type} (f g : α → Nat) (l : List α) :
    (l.map (fun x => f x + g x)).sum = (l.map f).sum + (l.map g).sum := by
  induction l with
  | nil => simp
  | cons x rest ih =>
    simp only [List.map_cons, List.sum_cons, ih]
    omega

theorem countP_exchange {α β : Type} (P : α → β → Bool) (cs : List α)
    (V : List β) :
    (cs.map (fun c => V.countP (P c))).sum =
      (V.map (fun v => cs.countP (fun c => P c v))).sum := by
  induction cs with
  | nil => simp
  | cons c cs ih =>
    simp only [List.map_cons, List.sum_cons, ih]
    have hstep : (V.map (fun v => (c :: cs).countP (fun c => P c v))) =
        V.map (fun v => cs.countP (fun c => P c v) + if P c v then 1 else 0) := by
      apply List.map_congr_left
      intro v _
      rw [List.countP_cons]
    rw [hstep, sum_map_add, countP_indicator_sum (P c) V]
    omega

theorem countP_split {α : Type} (p q : α → Bool) (l : List α) :
    l.countP p =
      l.countP (fun x => p x && q x) + l.countP (fun x => p x && !q x) := by
  induction l with
  | nil => simp
  | cons x rest ih =>
    simp only [List.countP_cons, ih]
    cases hp : p x <;> cases hq : q x <;> simp <;> omega

theorem countP_lt {α : Type} (p q : α → Bool) (l : List α)
    (hsub : ∀ x ∈ l, p x = true → q x = true) (a : α) (ha : a ∈ l)
    (hqa : q a = true) (hpa : p a = false) : l.countP p < l.countP q := by
  induction l with
  | nil => simp at ha
  | cons x rest ih =>
    rw [List.countP_cons, List.countP_cons]
    rcases List.mem_cons.mp ha with heq | ha2
    · subst heq
      rw [hpa, hqa]
      simp only [Bool.false_eq_true, if_false, if_true]
      have := List.countP_mono_left (fun x hx => hsub x (List.mem_cons_of_mem _ hx))
      omega
    · have hle : (if p x = true then 1 else 0) ≤ (if q x = true then 1 else 0) := by
        cases hpx : p x with
        | false => simp
        | true => rw [hsub x (List.mem_cons_self _ _) hpx]
      have := ih (fun y hy => hsub y (List.mem_cons_of_mem _ hy)) ha2
      omega

theorem child_partition (V : List Session) (hnd : (V.map Session.id).Nodup)
    (_hroot : rootedForest V = true) (s : Session) (hs : s ∈ V)
    (v : Session) (hv : v ∈ V) :
    (childFilter V s.id).countP (fun c => inChain V c v) =
      if inChain V s v = true ∧ v ≠ s then 1 else 0 := by
  by_cases hcond : inChain V s v = true ∧ v ≠ s
  · rw [if_pos hcond]
    obtain ⟨hin, hvs⟩ := hcond
    obtain ⟨ch, hch, hsin⟩ := (inChain_iff V s v).mp hin
    obtain ⟨c, hcmem, hcin⟩ :=
      child_exists_aux V hnd s ch.length v ch (le_refl _) hch hsin hvs hv
    apply countP_eq_one_of_unique _ _
      (List.Nodup.filter _ (List.Nodup.of_map _ hnd)) c hcmem hcin
    intro b hb hpb
    exact child_unique V hnd s hs b c v hb hcmem hpb hcin
  · rw [if_neg hcond]
    rw [List.countP_eq_zero]
    intro c hc hpc
    push_neg at hcond
    by_cases hveq : v = s
    · rw [hveq] at hpc
      have hdown := inChain_parent_not_down V hnd s c hs hc
      rw [hpc] at hdown
      simp at hdown
    · have hins := inChain_child_up V hnd s c hs hc v hpc
      exact hveq (hcond hins)

theorem descCount_partition (V : List Session) (hnd : (V.map Session.id).Nodup)
    (hroot : rootedForest V = true) (s : Session) (hs : s ∈ V) :
    descCount V s =
      1 + ((childFilter V s.id).map (fun c => descCount V c)).sum := by
  have hsplit := countP_split (fun v => inChain V s v) (fun v => v == s) V
  have h1 : V.countP (fun v => inChain V s v && (v == s)) = 1 := by
    obtain ⟨c0, hc0⟩ := chainOf_defined V hroot s hs
    apply countP_eq_one_of_unique _ _ (List.Nodup.of_map _ hnd) s hs
    · simp [inChain_self V s c0 hc0]
    · intro b _ hpb
      simp only [Bool.and_eq_true, beq_iff_eq] at hpb
      exact hpb.2
  have h2 : V.countP (fun v => inChain V s v && !(v == s)) =
      ((childFilter V s.id).map (fun c => descCount V c)).sum := by
    rw [countP_indicator_sum]
    unfold descCount
    rw [countP_exchange (fun c v => inChain V c v) (childFilter V s.id) V]
    apply congrArg List.sum
    apply List.map_congr_left
    intro v hvmem
    rw [child_partition V hnd hroot s hs v hvmem]
    by_cases ha : inChain V s v = true <;> by_cases hb : v = s <;>
      simp [ha, hb]
  have hsplit2 : descCount V s =
      V.countP (fun v => inChain V s v && (v == s)) +
      V.countP (fun v => inChain V s v && !(v == s)) := hsplit
  rw [hsplit2, h1, h2]

theorem descCount_child_lt (V : List Session) (hnd : (V.map Session.id).Nodup)
    (hroot : rootedForest V = true) (s : Session) (hs : s ∈ V)
    (c : Session) (hc : c ∈ childFilter V s.id) :
    descCount V c < descCount V s := by
  unfold descCount
  apply countP_lt _ _ V (fun v _ hp => inChain_child_up V hnd s c hs hc v hp) s hs
  · obtain ⟨c0, hc0⟩ := chainOf_defined V hroot s hs
    exact inChain_self V s c0 hc0
  · exact inChain_parent_not_down V hnd s c hs hc

theorem descCount_pos (V : List Session) (hroot : rootedForest V = true)
    (s : Session) (hs : s ∈ V) : 1 ≤ descCount V s := by
  unfold descCount
  have : 0 < V.countP (fun v => inChain V s v) := by
    rw [List.countP_pos_iff]
    obtain ⟨c0, hc0⟩ := chainOf_defined V hroot s hs
    exact ⟨s, hs, inChain_self V s c0 hc0⟩
  omega

theorem countForest_map (g : Session → Node) (l : List Session) :
    countForest (l.map g) = (l.map (fun c => countNodes (g c))).sum := by
  induction l with
  | nil => simp [countForest]
  | cons c rest ih => simp [countForest, ih]

theorem buildNode_session (m : Manager) (fuel : Nat) (s : Session) :
    (buildNode m fuel s).session = s := by
  cases fuel <;> rfl

theorem buildNode_count (m : Manager)
    (hnd : ((visibleSessions m).map Session.id).Nodup)
    (hroot : rootedForest (visibleSessions m) = true) :
    ∀ (fuel : Nat) (s : Session), s ∈ visibleSessions m →
      descCount (visibleSessions m) s ≤ fuel →
      countNodes (buildNode m fuel s) = descCount (visibleSessions m) s := by
  intro fuel
  induction fuel with
  | zero =>
    intro s hs hfuel
    have := descCount_pos (visibleSessions m) hroot s hs
    omega
  | succ n ih =>
    intro s hs hfuel
    have hshow : buildNode m (n + 1) s =
        Node.mk s ((sessionSort (childrenMapOf m s.id)).map (buildNode m n)) true := rfl
    rw [hshow]
    have hcount : countNodes
        (Node.mk s ((sessionSort (childrenMapOf m s.id)).map (buildNode m n)) true) =
        1 + countForest ((sessionSort (childrenMapOf m s.id)).map (buildNode m n)) := rfl
    rw [hcount, countForest_map]
    have hperm : List.Perm (sessionSort (childrenMapOf m s.id)) (childrenMapOf m s.id) :=
      sessionSort_perm _
    rw [(hperm.map (fun c => countNodes (buildNode m n c))).sum_eq]
    have hmapeq : (childrenMapOf m s.id).map (fun c => countNodes (buildNode m n c)) =
        (childrenMapOf m s.id).map (fun c => descCount (visibleSessions m) c) := by
      apply List.map_congr_left
      intro c hc
      have hcV : c ∈ visibleSessions m := List.mem_of_mem_filter hc
      have hlt := descCount_child_lt (visibleSessions m) hnd hroot s hs c hc
      exact ih c hcV (by omega)
    rw [hmapeq]
    exact (descCount_partition (visibleSessions m) hnd hroot s hs).symm

theorem chainOf_getLast_root (V : List Session) :
    ∀ (n : Nat) (v : Session) (ch : List Session), ch.length ≤ n → v ∈ V →
      chainOf V v = some ch →
      ∃ r, ch.getLast? = some r ∧ r ∈ V ∧ r.parentID = "" ∧
        inChain V r v = true := by
  intro n
  induction n with
  | zero =>
    intro v ch hlen hv hch
    obtain ⟨c2, rfl⟩ := upChain_head V V.length v ch hch
    simp at hlen
  | succ n ih =>
    intro v ch hlen hv hch
    by_cases hp : v.parentID = ""
    · obtain rfl := chainOf_root V v ch hch hp
      refine ⟨v, rfl, hv, hp, inChain_self V v [v] hch⟩
    · obtain ⟨p, chp, hf, hchp, rfl⟩ := chainOf_parent V v ch hch hp
      have hpV : p ∈ V := List.mem_of_find?_eq_some hf
      have hlen2 : chp.length ≤ n := by simp at hlen; omega
      obtain ⟨r, hlast, hrV, hrpid, hrin⟩ := ih p chp hlen2 hpV hchp
      obtain ⟨chp0, rfl⟩ := upChain_head V V.length p chp hchp
      refine ⟨r, ?_, hrV, hrpid, ?_⟩
      · rw [List.getLast?_cons_cons]
        exact hlast
      · obtain ⟨chr, hchr, hrin2⟩ := (inChain_iff V r p).mp hrin
        obtain rfl : p :: chp0 = chr := by rw [hchp] at hchr; simpa using hchr
        rw [inChain_iff]
        exact ⟨v :: p :: chp0, hch, List.mem_cons_of_mem _ hrin2⟩

theorem roots_countP (V : List Session) (hnd : (V.map Session.id).Nodup)
    (hroot : rootedForest V = true) (v : Session) (hv : v ∈ V) :
    (V.filter (fun s => s.parentID == "")).countP (fun r => inChain V r v) = 1 := by
  obtain ⟨ch, hch⟩ := chainOf_defined V hroot v hv
  obtain ⟨r, hlast, hrV, hrpid, hrin⟩ :=
    chainOf_getLast_root V ch.length v ch (le_refl _) hv hch
  apply countP_eq_one_of_unique _ _
    (List.Nodup.filter _ (List.Nodup.of_map _ hnd)) r
    (List.mem_filter.mpr ⟨hrV, by simp [hrpid]⟩) hrin
  intro b hb hpb
  obtain ⟨hbV, hbpid⟩ := List.mem_filter.mp hb
  have hbpid2 : b.parentID = "" := by simpa using hbpid
  obtain ⟨chv, hchv, hbin⟩ := (inChain_iff V b v).mp hpb
  obtain rfl : ch = chv := by rw [hch] at hchv; simpa using hchv
  obtain ⟨cb, hcb, hsuf⟩ := upChain_mem_suffix V V.length v ch hch b hbin
  obtain rfl := chainOf_root V b cb hcb hbpid2
  obtain ⟨t, ht⟩ := hsuf
  have : ch.getLast? = some b := by
    rw [List.getLast?_eq_some_iff]
    exact ⟨t, ht.symm⟩
  rw [hlast] at this
  simpa using this.symm

theorem sum_map_one {α : Type} (l : List α) :
    (l.map (fun _ => 1)).sum = l.length := by
  induction l with
  | nil => rfl
  | cons x rest ih => simp [ih]; omega

theorem getSessionTree_count (m : Manager)
    (hnd : ((visibleSessions m).map Session.id).Nodup)
    (hroot : rootedForest (visibleSessions m) = true) :
    countForest (GetSessionTree m) = (visibleSessions m).length := by
  unfold GetSessionTree
  rw [countForest_map]
  have hperm : List.Perm (sessionSort (rootsOf m)) (rootsOf m) := sessionSort_perm _
  rw [(hperm.map (fun r => countNodes (buildNode m m.sessions.length r))).sum_eq]
  have hmapeq : (rootsOf m).map (fun r => countNodes (buildNode m m.sessions.length r)) =
      (rootsOf m).map (fun r => descCount (visibleSessions m) r) := by
    apply List.map_congr_left
    intro r hr
    have hrV : r ∈ visibleSessions m := List.mem_of_mem_filter hr
    apply buildNode_count m hnd hroot m.sessions.length r hrV
    calc descCount (visibleSessions m) r ≤ (visibleSessions m).length :=
          List.countP_le_length _
      _ ≤ m.sessions.length := List.length_filter_le _ _
  rw [hmapeq]
  have hexch := countP_exchange (fun r v => inChain (visibleSessions m) r v)
    (rootsOf m) (visibleSessions m)
  have hdesc : (rootsOf m).map (fun r => descCount (visibleSessions m) r) =
      (rootsOf m).map (fun r => (visibleSessions m).countP
        (fun v => inChain (visibleSessions m) r v)) := rfl
  rw [hdesc, hexch]
  have hones : (visibleSessions m).map (fun v => (rootsOf m).countP
      (fun r => inChain (visibleSessions m) r v)) =
      (visibleSessions m).map (fun _ => 1) := by
    apply List.map_congr_left
    intro v hvmem
    exact roots_countP (visibleSessions m) hnd hroot v hvmem
  rw [hones, sum_map_one]

theorem mem_allNodesForest_map (g : Session → Node) (l : List Session) (d : Node)
    (h : d ∈ allNodesForest (l.map g)) : ∃ c ∈ l, d ∈ allNodes (g c) := by
  induction l with
  | nil => simp [allNodesForest] at h
  | cons c cs ih =>
    simp only [List.map_cons, allNodesForest] at h
    rcases List.mem_append.mp h with h2 | h2
    · exact ⟨c, List.mem_cons_self _ _, h2⟩
    · obtain ⟨c2, hc2, hd2⟩ := ih h2
      exact ⟨c2, List.mem_cons_of_mem _ hc2, hd2⟩

theorem buildNode_structure (m : Manager)
    (hnd : ((visibleSessions m).map Session.id).Nodup)
    (hroot : rootedForest (visibleSessions m) = true) :
    ∀ (fuel : Nat) (s : Session), s ∈ visibleSessions m →
      descCount (visibleSessions m) s ≤ fuel →
      ∀ d ∈ allNodes (buildNode m fuel s),
        d.session ∈ visibleSessions m ∧
        List.Perm (d.children.map Node.session) (childrenMapOf m d.session.id) ∧
        (d.children.map Node.session).Pairwise descByUpdate ∧
        d.expanded = true := by
  intro fuel
  induction fuel with
  | zero =>
    intro s hs hfuel
    have := descCount_pos (visibleSessions m) hroot s hs
    omega
  | succ n ih =>
    intro s hs hfuel d hd
    have hshow : buildNode m (n + 1) s =
        Node.mk s ((sessionSort (childrenMapOf m s.id)).map (buildNode m n)) true := rfl
    rw [hshow] at hd
    simp only [allNodes] at hd
    rcases List.mem_cons.mp hd with rfl | hd2
    · have hmap : ((sessionSort (childrenMapOf m s.id)).map (buildNode m n)).map
          Node.session = sessionSort (childrenMapOf m s.id) := by
        rw [List.map_map]
        have : (Node.session ∘ buildNode m n) = fun c => c := by
          funext c
          exact buildNode_session m n c
        rw [this]
        simp
      refine ⟨hs, ?_, ?_, rfl⟩
      · rw [Node.children_mk, Node.session_mk, hmap]
        exact sessionSort_perm _
      · rw [Node.children_mk, hmap]
        exact sessionSort_sorted _
    · obtain ⟨c, hc, hdc⟩ :=
        mem_allNodesForest_map (buildNode m n) _ d hd2
      have hcm : c ∈ childrenMapOf m s.id := (sessionSort_mem _ c).mp hc
      have hcV : c ∈ visibleSessions m := List.mem_of_mem_filter hcm
      have hlt := descCount_child_lt (visibleSessions m) hnd hroot s hs c hcm
      exact ih c hcV (by omega) d hdc

/-- C3 counterexample: the claim's hypothesis — every `parentID` empty or
the id of another session of the set — is satisfied both by a two-session
parent cycle and by an excluded parent with a visible child, yet in both
stores the forest's node count differs from the number of non-excluded
sessions (the cycle members vanish; the excluded parent takes its visible
child down with it). -/
theorem c3_getSessionTree_counterexample :
    ((∀ s ∈ mgrParentCycle.sessions, s.parentID = "" ∨
        ∃ t ∈ mgrParentCycle.sessions, t ≠ s ∧ t.id = s.parentID) ∧
      countForest (GetSessionTree mgrParentCycle) ≠
        (visibleSessions mgrParentCycle).length) ∧
    ((∀ s ∈ mgrExcludedParent.sessions, s.parentID = "" ∨
        ∃ t ∈ mgrExcludedParent.sessions, t ≠ s ∧ t.id = s.parentID) ∧
      countForest (GetSessionTree mgrExcludedParent) ≠
        (visibleSessions mgrExcludedParent).length) := by
  decide

/-- C3 (amended): when ids are distinct and non-empty and every
non-excluded session's parent chain inside the non-excluded set reaches a
root, `GetSessionTree` returns a forest with exactly one node per
non-excluded session, roots sorted by `lastUpdate` descending, and, at
every node, children that are exactly the non-excluded sessions whose
`parentID` is the node's id, sorted by `lastUpdate` descending, all nodes
expanded. -/
theorem c3_getSessionTree_spec (m : Manager)
    (hnd : ((visibleSessions m).map Session.id).Nodup)
    (hroot : rootedForest (visibleSessions m) = true)
    (hne : ∀ s ∈ visibleSessions m, s.id ≠ "") :
    countForest (GetSessionTree m) = (visibleSessions m).length ∧
    ((GetSessionTree m).map Node.session).Pairwise descByUpdate ∧
    List.Perm ((GetSessionTree m).map Node.session)
      ((visibleSessions m).filter (fun s => s.parentID == "")) ∧
    (∀ d ∈ allNodesForest (GetSessionTree m),
      List.Perm (d.children.map Node.session)
        ((visibleSessions m).filter (fun t => t.parentID == d.session.id)) ∧
      (d.children.map Node.session).Pairwise descByUpdate ∧
      d.expanded = true) := by
  have hmapforest : (GetSessionTree m).map Node.session =
      sessionSort (rootsOf m) := by
    unfold GetSessionTree
    rw [List.map_map]
    have : (Node.session ∘ buildNode m m.sessions.length) = fun c => c := by
      funext c
      exact buildNode_session m m.sessions.length c
    rw [this]
    simp
  refine ⟨getSessionTree_count m hnd hroot, ?_, ?_, ?_⟩
  · rw [hmapforest]
    exact sessionSort_sorted _
  · rw [hmapforest]
    exact sessionSort_perm _
  · intro d hd
    unfold GetSessionTree at hd
    obtain ⟨r, hr, hdr⟩ := mem_allNodesForest_map _ _ d hd
    have hrm : r ∈ rootsOf m := (sessionSort_mem _ r).mp hr
    have hrV : r ∈ visibleSessions m := List.mem_of_mem_filter hrm
    have hfuel : descCount (visibleSessions m) r ≤ m.sessions.length :=
      le_trans (List.countP_le_length _) (List.length_filter_le _ _)
    obtain ⟨hdV, hdperm, hdsort, hdexp⟩ :=
      buildNode_structure m hnd hroot m.sessions.length r hrV hfuel d hdr
    refine ⟨?_, hdsort, hdexp⟩
    have hfilter : childrenMapOf m d.session.id =
        (visibleSessions m).filter (fun t => t.parentID == d.session.id) := by
      unfold childrenMapOf
      apply List.filter_congr
      intro t _
      by_cases hti : t.parentID = d.session.id
      · have htne : ¬(d.session.id = "") := hne d.session hdV
        simp [hti, htne]
      · simp [hti]
    rw [← hfilter]
    exact hdperm

/-- Witness for C3 at a concrete well-formed store: a root with two
children yields three nodes. -/
theorem c3_getSessionTree_spec_witness :
    countForest (GetSessionTree mgrFamily) = (visibleSessions mgrFamily).length :=
  (c3_getSessionTree_spec mgrFamily (by decide) (by decide) (by decide)).1
